import Mathlib

/-!
Verification of the AliceVision track-fusion core
(`src/aliceVision/track/Track.hpp`).

The header under verification declares the `TracksBuilder` engine
(`build`, `filter`, `exportToSTL`, `nbTracks`) and the query utilities of
namespace `tracksUtilsMap`.  The inline functions of the header
(`getTracksInImage`, `getTracksInImageFast`, `tracksToIndexedMatches`,
`nbTracks`, ...) are translated directly from their C++ bodies.  The
out-of-line members (`build`, `filter`, `exportToSTL`,
`getCommonTracksInImages`, `getCommonTracksInImagesFast`) have no body in
the repository snapshot (only the header is present), so they are modelled
from the specification, as flagged on each definition.

A feature key `(viewId, descType, featIndex)` is embedded as
`Nat × Nat × Nat` (the describer-type enum becomes a `Nat` tag).
`std::size_t` values are embedded as `Nat`: none of the verified
operations perform arithmetic that could overflow machine words, they
only compare, store and count identifiers.
-/

namespace track

/-- Association-list lookup, the embedding of `stl::flat_map::find`:
the value attached to the first entry whose key matches. -/
def alookup {α β : Type} [DecidableEq α] : List (α × β) → α → Option β
  | [], _ => none
  | p :: t, x => if x = p.1 then some p.2 else alookup t x

variable {α β : Type} [DecidableEq α]

theorem alookup_nil {x : α} : alookup ([] : List (α × β)) x = none := rfl

theorem alookup_cons {p : α × β} {t : List (α × β)} {x : α} :
    alookup (p :: t) x = if x = p.1 then some p.2 else alookup t x := rfl

theorem mem_of_alookup {l : List (α × β)} {x : α} {v : β}
    (h : alookup l x = some v) : (x, v) ∈ l := by
  induction l with
  | nil => simp [alookup] at h
  | cons p t ih =>
    rw [alookup_cons] at h
    by_cases hx : x = p.1
    · rw [if_pos hx] at h
      cases h
      rw [List.mem_cons]
      left
      rw [hx]
    · rw [if_neg hx] at h
      exact List.mem_cons_of_mem _ (ih h)

theorem alookup_isSome_of_mem {l : List (α × β)} {x : α} {v : β}
    (h : (x, v) ∈ l) : (alookup l x).isSome := by
  induction l with
  | nil => simp at h
  | cons p t ih =>
    rcases List.mem_cons.1 h with h | h
    · rw [alookup_cons, ← h, if_pos rfl]; rfl
    · rw [alookup_cons]
      by_cases hx : x = p.1
      · rw [if_pos hx]; rfl
      · rw [if_neg hx]; exact ih h

theorem alookup_eq_none_of_not_mem {l : List (α × β)} {x : α}
    (h : x ∉ l.map Prod.fst) : alookup l x = none := by
  induction l with
  | nil => rfl
  | cons p t ih =>
    simp only [List.map_cons, List.mem_cons, not_or] at h
    rw [alookup_cons, if_neg h.1]
    exact ih h.2

theorem not_mem_of_alookup_eq_none {l : List (α × β)} {x : α}
    (h : alookup l x = none) : x ∉ l.map Prod.fst := by
  induction l with
  | nil => simp
  | cons p t ih =>
    rw [alookup_cons] at h
    by_cases hx : x = p.1
    · rw [if_pos hx] at h; cases h
    · rw [if_neg hx] at h
      simp only [List.map_cons, List.mem_cons, not_or]
      exact ⟨hx, ih h⟩

theorem alookup_of_mem_nodup {l : List (α × β)} {x : α} {v : β}
    (hnd : (l.map Prod.fst).Nodup) (h : (x, v) ∈ l) : alookup l x = some v := by
  induction l with
  | nil => simp at h
  | cons p t ih =>
    simp only [List.map_cons, List.nodup_cons] at hnd
    rcases List.mem_cons.1 h with h | h
    · rw [← h, alookup_cons, if_pos rfl]
    · rw [alookup_cons]
      by_cases hx : x = p.1
      · exfalso
        apply hnd.1
        rw [← hx]
        exact List.mem_map_of_mem Prod.fst h
      · rw [if_neg hx]
        exact ih hnd.2 h

theorem alookup_map_value {γ : Type} {l : List (α × β)} (f : β → γ) (x : α) :
    alookup (l.map fun p => (p.1, f p.2)) x = (alookup l x).map f := by
  induction l with
  | nil => rfl
  | cons p t ih =>
    simp only [List.map_cons, alookup_cons]
    by_cases hx : x = p.1
    · rw [if_pos hx, if_pos hx]; rfl
    · rw [if_neg hx, if_neg hx]; exact ih

theorem alookup_filter_of_keep {l : List (α × β)} {p : α × β → Bool} {x : α} {v : β}
    (h : alookup l x = some v) (hp : p (x, v)) :
    alookup (l.filter p) x = some v := by
  induction l with
  | nil => cases h
  | cons q t ih =>
    rw [alookup_cons] at h
    by_cases hx : x = q.1
    · rw [if_pos hx] at h
      cases h
      have hq : q = (x, q.2) := by rw [hx]
      have hpq : p q := by rw [hq]; exact hp
      rw [List.filter_cons_of_pos hpq, alookup_cons, if_pos hx]
    · rw [if_neg hx] at h
      by_cases hpq : p q
      · rw [List.filter_cons_of_pos hpq, alookup_cons, if_neg hx]
        exact ih h
      · rw [List.filter_cons_of_neg hpq]
        exact ih h

theorem alookup_filter_sub {l : List (α × β)} {p : α × β → Bool} {x : α} {v : β}
    (hnd : (l.map Prod.fst).Nodup) (h : alookup (l.filter p) x = some v) :
    alookup l x = some v ∧ p (x, v) := by
  induction l with
  | nil => cases h
  | cons q t ih =>
    simp only [List.map_cons, List.nodup_cons] at hnd
    by_cases hpq : p q
    · rw [List.filter_cons_of_pos hpq] at h
      rw [alookup_cons] at h ⊢
      by_cases hx : x = q.1
      · rw [if_pos hx] at h ⊢
        cases h
        refine ⟨rfl, ?_⟩
        have hq : q = (x, q.2) := by rw [hx]
        rw [← hq]
        exact hpq
      · rw [if_neg hx] at h ⊢
        exact ih hnd.2 h
    · rw [List.filter_cons_of_neg hpq] at h
      rw [alookup_cons]
      by_cases hx : x = q.1
      · exfalso
        rcases ih hnd.2 h with ⟨hmem, _⟩
        apply hnd.1
        rw [← hx]
        exact List.mem_map_of_mem Prod.fst (mem_of_alookup hmem)
      · rw [if_neg hx]
        exact ih hnd.2 h

/-- A feature key `(viewId, descType, featIndex)`: `TracksBuilder::IndexedFeaturePair`,
i.e. `std::pair<std::size_t, KeypointId>` with `KeypointId = (descType, featIndex)`. -/
abbrev FeatureKey : Type := Nat × Nat × Nat

/-- `viewId` component of a feature key. -/
def viewOf (k : FeatureKey) : Nat := k.1

/-- Modelled from the spec: the state of `TracksBuilder` (its body is not in
the repository snapshot; only `Track.hpp` is).  Per spec §3/§9 it is an arena
of nodes (opaque integer handles allocated lazily), a bijective key to node
map with its inverse (`MapIndexToNode` / `MapNodeToIndex`), and a disjoint-set
structure on nodes.  The disjoint-set is embedded as an eager root map: every
allocated node is mapped directly to the representative of its class. -/
structure BuilderState where
  nextNode : Nat
  indexToNode : List (FeatureKey × Nat)
  nodeToIndex : List (Nat × FeatureKey)
  root : List (Nat × Nat)
deriving DecidableEq

/-- The empty builder. -/
def emptyBuilder : BuilderState := ⟨0, [], [], []⟩

/-- Modelled from the spec: "resolve or create both endpoint nodes via the
key to node map" — an existing key resolves to its existing node, a new key
allocates a fresh node (registered in both maps and as a fresh singleton
class of the disjoint-set). -/
def resolve (s : BuilderState) (k : FeatureKey) : Nat × BuilderState :=
  match alookup s.indexToNode k with
  | some n => (n, s)
  | none =>
      (s.nextNode,
        { nextNode := s.nextNode + 1
          indexToNode := (k, s.nextNode) :: s.indexToNode
          nodeToIndex := (s.nextNode, k) :: s.nodeToIndex
          root := (s.nextNode, s.nextNode) :: s.root })

/-- Modelled from the spec: `union(a, b)` of the disjoint-set on two already
allocated nodes.  If the two roots differ, the class of the first root is
redirected onto the second; otherwise the state is unchanged. -/
def applyUnionRoot (s : BuilderState) (na nb : Nat) : BuilderState :=
  match alookup s.root na, alookup s.root nb with
  | some ra, some rb =>
      if ra = rb then s
      else { s with root := s.root.map fun nr => (nr.1, if nr.2 = ra then rb else nr.2) }
  | _, _ => s

/-- Modelled from the spec: process one correspondence edge — "for every
correspondence, resolve or create both endpoint nodes via the key to node
map, then union them". -/
def joinKeys (s : BuilderState) (a b : FeatureKey) : BuilderState :=
  let r1 := resolve s a
  let r2 := resolve r1.2 b
  applyUnionRoot r2.2 r1.1 r2.1

/-- Modelled from the spec: `TracksBuilder::build`, single pass over the
flattened correspondence edges, starting from the empty builder. -/
def build (edges : List (FeatureKey × FeatureKey)) : BuilderState :=
  edges.foldl (fun s e => joinKeys s e.1 e.2) emptyBuilder

/-- One entry of `PairwiseMatches`: two view ids, and per describer type a
list of matched feature-index pairs. -/
structure PairwiseEntry where
  viewI : Nat
  viewJ : Nat
  matchesPerType : List (Nat × List (Nat × Nat))

/-- The correspondence edges denoted by one `PairwiseMatches` entry. -/
def entryEdges (e : PairwiseEntry) : List (FeatureKey × FeatureKey) :=
  e.matchesPerType.flatMap fun tm =>
    tm.2.map fun m => ((e.viewI, tm.1, m.1), (e.viewJ, tm.1, m.2))

/-- Modelled from the spec: `build` on the nested pairwise-match collection,
processing every correspondence edge of every entry. -/
def buildPairwise (pm : List PairwiseEntry) : BuilderState :=
  build (pm.flatMap entryEdges)

/-- The node associated with a key (`MapIndexToNode` lookup). -/
def keyNode (s : BuilderState) (k : FeatureKey) : Option Nat :=
  alookup s.indexToNode k

/-- The representative of a node's class. -/
def nodeRoot (s : BuilderState) (n : Nat) : Option Nat :=
  alookup s.root n

/-- The representative of the class of a key's node. -/
def keyRoot (s : BuilderState) (k : FeatureKey) : Option Nat :=
  (keyNode s k).bind (nodeRoot s)

/-- Two feature keys lie in the same class of the disjoint-set structure. -/
def sameClass (s : BuilderState) (a b : FeatureKey) : Prop :=
  (keyRoot s a).isSome ∧ keyRoot s a = keyRoot s b

instance (s : BuilderState) (a b : FeatureKey) : Decidable (sameClass s a b) := by
  unfold sameClass
  infer_instance

theorem sameClass_symm {s : BuilderState} {a b : FeatureKey}
    (h : sameClass s a b) : sameClass s b a :=
  ⟨h.2 ▸ h.1, h.2.symm⟩

theorem sameClass_trans {s : BuilderState} {a b c : FeatureKey}
    (h1 : sameClass s a b) (h2 : sameClass s b c) : sameClass s a c :=
  ⟨h1.1, h1.2.trans h2.2⟩

/-- Well-formedness of a builder state: allocated nodes are below the
allocation counter, the key to node map is injective and mutually inverse
with the node to key map, and the root map is an eager union-find (defined
exactly on allocated nodes, roots mapped to themselves, one entry per node). -/
structure WF (s : BuilderState) : Prop where
  nodeLt : ∀ k n, keyNode s k = some n → n < s.nextNode
  inj : ∀ k1 k2 n, keyNode s k1 = some n → keyNode s k2 = some n → k1 = k2
  toIdx : ∀ k n, keyNode s k = some n → alookup s.nodeToIndex n = some k
  ofIdx : ∀ n k, alookup s.nodeToIndex n = some k → keyNode s k = some n
  rootKeysNodup : (s.root.map Prod.fst).Nodup
  rootDomSome : ∀ k n, keyNode s k = some n → (nodeRoot s n).isSome
  rootDomMem : ∀ n, (nodeRoot s n).isSome → ∃ k, keyNode s k = some n
  rootClosed : ∀ n r, nodeRoot s n = some r → nodeRoot s r = some r

theorem WF.rootLt {s : BuilderState} (hw : WF s) {n r : Nat}
    (h : nodeRoot s n = some r) : r < s.nextNode := by
  have hc : nodeRoot s r = some r := hw.rootClosed n r h
  have hm : (nodeRoot s r).isSome := by rw [hc]; rfl
  rcases hw.rootDomMem r hm with ⟨k, hk⟩
  exact hw.nodeLt k r hk

theorem WF.nodeRoot_fresh {s : BuilderState} (hw : WF s) :
    nodeRoot s s.nextNode = none := by
  cases h : nodeRoot s s.nextNode with
  | none => rfl
  | some r =>
    exfalso
    have hm : (nodeRoot s s.nextNode).isSome := by rw [h]; rfl
    rcases hw.rootDomMem _ hm with ⟨k, hk⟩
    exact Nat.lt_irrefl _ (hw.nodeLt k _ hk)

theorem WF.keyNode_lt_of_some {s : BuilderState} (hw : WF s) {k : FeatureKey} {n : Nat}
    (h : keyNode s k = some n) : n < s.nextNode := hw.nodeLt k n h

theorem WF.keyRoot_isSome_of_keyNode {s : BuilderState} (hw : WF s) {k : FeatureKey} {n : Nat}
    (h : keyNode s k = some n) : (keyRoot s k).isSome := by
  unfold keyRoot
  rw [h]
  exact hw.rootDomSome k n h

theorem WF.emptyBuilder : WF emptyBuilder := by
  constructor <;>
    first
      | exact List.nodup_nil
      | simp [keyNode, nodeRoot, emptyBuilder, alookup]

theorem resolve_of_found {s : BuilderState} {k : FeatureKey} {n : Nat}
    (h : keyNode s k = some n) : resolve s k = (n, s) := by
  unfold resolve keyNode at *
  rw [h]

theorem resolve_fresh_state {s : BuilderState} {k : FeatureKey}
    (h : keyNode s k = none) :
    resolve s k = (s.nextNode,
      { nextNode := s.nextNode + 1
        indexToNode := (k, s.nextNode) :: s.indexToNode
        nodeToIndex := (s.nextNode, k) :: s.nodeToIndex
        root := (s.nextNode, s.nextNode) :: s.root }) := by
  unfold resolve keyNode at *
  rw [h]

theorem keyNode_resolve_self {s : BuilderState} (k : FeatureKey) :
    keyNode (resolve s k).2 k = some (resolve s k).1 := by
  cases h : keyNode s k with
  | some n => rw [resolve_of_found h]; exact h
  | none =>
    rw [resolve_fresh_state h]
    simp [keyNode, alookup_cons]

theorem keyNode_resolve_other {s : BuilderState} {k x : FeatureKey} (hx : x ≠ k) :
    keyNode (resolve s k).2 x = keyNode s x := by
  cases h : keyNode s k with
  | some n => rw [resolve_of_found h]
  | none =>
    rw [resolve_fresh_state h]
    simp [keyNode, alookup_cons, hx]

theorem nodeRoot_resolve {s : BuilderState} {k : FeatureKey} {n : Nat}
    (hn : n ≠ s.nextNode) : nodeRoot (resolve s k).2 n = nodeRoot s n := by
  cases h : keyNode s k with
  | some m => rw [resolve_of_found h]
  | none =>
    rw [resolve_fresh_state h]
    simp [nodeRoot, alookup_cons, hn]

theorem keyRoot_resolve_other {s : BuilderState} (hw : WF s) {k x : FeatureKey}
    (hx : x ≠ k) : keyRoot (resolve s k).2 x = keyRoot s x := by
  unfold keyRoot
  rw [keyNode_resolve_other hx]
  cases hm : keyNode s x with
  | none => rfl
  | some m =>
    have hlt : m < s.nextNode := hw.nodeLt x m hm
    exact nodeRoot_resolve (Nat.ne_of_lt hlt)

theorem keyRoot_resolve_found {s : BuilderState} {k : FeatureKey} {n : Nat}
    (h : keyNode s k = some n) : keyRoot (resolve s k).2 k = keyRoot s k := by
  rw [resolve_of_found h]

theorem keyRoot_resolve_of_isSome {s : BuilderState} (hw : WF s) {x : FeatureKey}
    (hx : (keyRoot s x).isSome) (k : FeatureKey) :
    keyRoot (resolve s k).2 x = keyRoot s x := by
  by_cases hxk : x = k
  · subst hxk
    cases hn : keyNode s x with
    | none => unfold keyRoot at hx; rw [hn] at hx; cases hx
    | some n => exact keyRoot_resolve_found hn
  · exact keyRoot_resolve_other hw hxk

theorem keyRoot_resolve_fresh {s : BuilderState} {k : FeatureKey}
    (h : keyNode s k = none) :
    keyRoot (resolve s k).2 k = some s.nextNode := by
  rw [resolve_fresh_state h]
  simp [keyRoot, keyNode, nodeRoot, alookup_cons]

theorem keyRoot_lt {s : BuilderState} (hw : WF s) {x : FeatureKey} {r : Nat}
    (h : keyRoot s x = some r) : r < s.nextNode := by
  unfold keyRoot at h
  cases hn : keyNode s x with
  | none => rw [hn] at h; cases h
  | some n =>
    rw [hn] at h
    exact hw.rootLt h

theorem WF.resolve {s : BuilderState} (hw : WF s) (k : FeatureKey) :
    WF (resolve s k).2 := by
  cases h : keyNode s k with
  | some n => rw [resolve_of_found h]; exact hw
  | none =>
    rw [resolve_fresh_state h]
    have hroot_fresh := hw.nodeRoot_fresh
    constructor
    · intro x n hx
      rw [keyNode, alookup_cons] at hx
      by_cases hxk : x = k
      · rw [if_pos hxk] at hx
        cases hx
        exact Nat.lt_succ_self _
      · rw [if_neg hxk] at hx
        exact Nat.lt_succ_of_lt (hw.nodeLt x n hx)
    · intro x1 x2 n h1 h2
      rw [keyNode, alookup_cons] at h1 h2
      by_cases h1k : x1 = k <;> by_cases h2k : x2 = k
      · rw [h1k, h2k]
      · rw [if_pos h1k] at h1
        rw [if_neg h2k] at h2
        cases h1
        exact absurd (hw.nodeLt x2 _ h2) (Nat.lt_irrefl _)
      · rw [if_neg h1k] at h1
        rw [if_pos h2k] at h2
        cases h2
        exact absurd (hw.nodeLt x1 _ h1) (Nat.lt_irrefl _)
      · rw [if_neg h1k] at h1
        rw [if_neg h2k] at h2
        exact hw.inj x1 x2 n h1 h2
    · intro x n hx
      rw [keyNode, alookup_cons] at hx
      rw [alookup_cons]
      by_cases hxk : x = k
      · rw [if_pos hxk] at hx
        cases hx
        rw [if_pos rfl]
        rw [hxk]
      · rw [if_neg hxk] at hx
        have hlt := hw.nodeLt x n hx
        rw [if_neg (Nat.ne_of_lt hlt)]
        exact hw.toIdx x n hx
    · intro n x hx
      rw [alookup_cons] at hx
      rw [keyNode, alookup_cons]
      by_cases hnk : n = s.nextNode
      · rw [if_pos hnk] at hx
        cases hx
        rw [if_pos rfl, hnk]
      · rw [if_neg hnk] at hx
        have hx' := hw.ofIdx n x hx
        have hxk : ¬ x = k := by
          intro he
          rw [he] at hx'
          rw [hx'] at h
          cases h
        rw [if_neg hxk]
        exact hx'
    · simp only [List.map_cons, List.nodup_cons]
      refine ⟨?_, hw.rootKeysNodup⟩
      intro hmem
      rcases List.mem_map.1 hmem with ⟨e, he, hfst⟩
      have : ((s.nextNode : Nat), e.2) ∈ s.root := by
        have he2 : e = (e.1, e.2) := rfl
        rw [he2] at he
        rw [hfst] at he
        exact he
      have hsome := alookup_isSome_of_mem this
      rw [show alookup s.root s.nextNode = nodeRoot s s.nextNode from rfl, hroot_fresh] at hsome
      cases hsome
    · intro x n hx
      rw [keyNode, alookup_cons] at hx
      rw [nodeRoot, alookup_cons]
      by_cases hxk : x = k
      · rw [if_pos hxk] at hx
        cases hx
        rw [if_pos rfl]
        rfl
      · rw [if_neg hxk] at hx
        have hlt := hw.nodeLt x n hx
        rw [if_neg (Nat.ne_of_lt hlt)]
        exact hw.rootDomSome x n hx
    · intro n hn
      rw [nodeRoot, alookup_cons] at hn
      by_cases hnk : n = s.nextNode
      · refine ⟨k, ?_⟩
        rw [keyNode, alookup_cons, if_pos rfl, hnk]
      · rw [if_neg hnk] at hn
        rcases hw.rootDomMem n hn with ⟨x, hx⟩
        refine ⟨x, ?_⟩
        have hxk : ¬ x = k := by
          intro he
          rw [he] at hx
          rw [hx] at h
          cases h
        rw [keyNode, alookup_cons, if_neg hxk]
        exact hx
    · intro n r hr
      rw [nodeRoot, alookup_cons] at hr
      rw [nodeRoot, alookup_cons]
      by_cases hnk : n = s.nextNode
      · rw [if_pos hnk] at hr
        cases hr
        rw [if_pos rfl]
      · rw [if_neg hnk] at hr
        have hrc := hw.rootClosed n r hr
        have hlt : r < s.nextNode := hw.rootLt hr
        rw [if_neg (Nat.ne_of_lt hlt)]
        exact hrc

theorem applyUnionRoot_eq_of_some {s : BuilderState} {na nb ra rb : Nat}
    (ha : alookup s.root na = some ra) (hb : alookup s.root nb = some rb) :
    applyUnionRoot s na nb =
      if ra = rb then s
      else { s with root := s.root.map fun nr => (nr.1, if nr.2 = ra then rb else nr.2) } := by
  unfold applyUnionRoot
  rw [ha, hb]

theorem WF.applyUnionRoot {s : BuilderState} (hw : WF s) (na nb : Nat) :
    WF (track.applyUnionRoot s na nb) := by
  cases ha : alookup s.root na with
  | none =>
    have : track.applyUnionRoot s na nb = s := by
      unfold track.applyUnionRoot
      rw [ha]
    rw [this]
    exact hw
  | some ra =>
    cases hb : alookup s.root nb with
    | none =>
      have : track.applyUnionRoot s na nb = s := by
        unfold track.applyUnionRoot
        rw [ha, hb]
      rw [this]
      exact hw
    | some rb =>
      rw [applyUnionRoot_eq_of_some ha hb]
      by_cases hr : ra = rb
      · rw [if_pos hr]
        exact hw
      · rw [if_neg hr]
        have hmap : ∀ n, nodeRoot { s with
            root := s.root.map fun nr => (nr.1, if nr.2 = ra then rb else nr.2) } n =
            (nodeRoot s n).map (fun r => if r = ra then rb else r) := by
          intro n
          exact alookup_map_value (fun r => if r = ra then rb else r) n
        have hrb_root : nodeRoot s rb = some rb := hw.rootClosed nb rb hb
        constructor
        · exact hw.nodeLt
        · exact hw.inj
        · exact hw.toIdx
        · exact hw.ofIdx
        · have : (List.map Prod.fst
              (s.root.map fun nr => (nr.1, if nr.2 = ra then rb else nr.2))) =
              s.root.map Prod.fst := by
            rw [List.map_map]
            rfl
          rw [this]
          exact hw.rootKeysNodup
        · intro x n hx
          rw [hmap n]
          have := hw.rootDomSome x n hx
          cases hnr : nodeRoot s n with
          | none => rw [hnr] at this; cases this
          | some r => rfl
        · intro n hn
          rw [hmap n] at hn
          apply hw.rootDomMem n
          cases hnr : nodeRoot s n with
          | none => rw [hnr] at hn; cases hn
          | some r => rfl
        · intro n r' hr'
          rw [hmap n] at hr'
          rw [hmap r']
          cases hnr : nodeRoot s n with
          | none => rw [hnr] at hr'; cases hr'
          | some r =>
            rw [hnr, Option.map_some'] at hr'
            cases hr'
            by_cases hra : r = ra
            · rw [if_pos hra, hrb_root, Option.map_some']
              rw [if_neg (fun he => hr he.symm)]
            · rw [if_neg hra]
              have : nodeRoot s r = some r := hw.rootClosed n r hnr
              rw [this, Option.map_some']
              rw [if_neg hra]

theorem WF.joinKeys {s : BuilderState} (hw : WF s) (a b : FeatureKey) :
    WF (track.joinKeys s a b) :=
  ((hw.resolve a).resolve b).applyUnionRoot _ _

theorem wf_build (l : List (FeatureKey × FeatureKey)) : WF (build l) := by
  have main : ∀ (l : List (FeatureKey × FeatureKey)) (s : BuilderState), WF s →
      WF (l.foldl (fun s e => joinKeys s e.1 e.2) s) := by
    intro l
    induction l with
    | nil => intro s hs; exact hs
    | cons e t ih =>
      intro s hs
      exact ih _ (hs.joinKeys e.1 e.2)
  exact main l emptyBuilder WF.emptyBuilder

theorem sameClass_resolve {s : BuilderState} (hw : WF s) (k x y : FeatureKey) :
    sameClass (resolve s k).2 x y ↔ sameClass s x y ∨ (x = k ∧ y = k) := by
  cases h : keyNode s k with
  | some n =>
    rw [resolve_of_found h]
    constructor
    · exact Or.inl
    · rintro (hs | ⟨hx, hy⟩)
      · exact hs
      · subst hx; subst hy
        exact ⟨hw.keyRoot_isSome_of_keyNode h, rfl⟩
  | none =>
    have hknone : keyRoot s k = none := by
      unfold keyRoot
      rw [h]
      rfl
    by_cases hxk : x = k <;> by_cases hyk : y = k
    · subst hxk; subst hyk
      constructor
      · intro _
        exact Or.inr ⟨rfl, rfl⟩
      · intro _
        refine ⟨?_, rfl⟩
        rw [keyRoot_resolve_fresh h]
        rfl
    · subst hxk
      constructor
      · intro hc
        exfalso
        have h1 : keyRoot (resolve s x).2 x = some s.nextNode := keyRoot_resolve_fresh h
        have h2 : keyRoot (resolve s x).2 y = keyRoot s y := keyRoot_resolve_other hw hyk
        have h3 : keyRoot s y = some s.nextNode := by
          rw [← h2, ← hc.2, h1]
        exact Nat.lt_irrefl _ (keyRoot_lt hw h3)
      · rintro (hs | ⟨_, hy⟩)
        · exfalso
          have := hs.1
          rw [hknone] at this
          cases this
        · exact absurd hy hyk
    · subst hyk
      constructor
      · intro hc
        exfalso
        have h1 : keyRoot (resolve s y).2 y = some s.nextNode := keyRoot_resolve_fresh h
        have h2 : keyRoot (resolve s y).2 x = keyRoot s x := keyRoot_resolve_other hw hxk
        have h3 : keyRoot s x = some s.nextNode := by
          rw [← h2, hc.2, h1]
        exact Nat.lt_irrefl _ (keyRoot_lt hw h3)
      · rintro (hs | ⟨hx, _⟩)
        · exfalso
          have h2 := hs.2
          rw [hknone] at h2
          have := hs.1
          rw [h2] at this
          cases this
        · exact absurd hx hxk
    · have h1 : keyRoot (resolve s k).2 x = keyRoot s x := keyRoot_resolve_other hw hxk
      have h2 : keyRoot (resolve s k).2 y = keyRoot s y := keyRoot_resolve_other hw hyk
      constructor
      · intro hc
        exact Or.inl ⟨by rw [← h1]; exact hc.1, by rw [← h1, ← h2]; exact hc.2⟩
      · rintro (hs | ⟨hx, _⟩)
        · exact ⟨by rw [h1]; exact hs.1, by rw [h1, h2]; exact hs.2⟩
        · exact absurd hx hxk

theorem sameClass_applyUnionRoot {s2 : BuilderState} {a b : FeatureKey} {na nb ra rb : Nat}
    (hkn_a : keyNode s2 a = some na) (hkn_b : keyNode s2 b = some nb)
    (hra : nodeRoot s2 na = some ra) (hrb : nodeRoot s2 nb = some rb) (x y : FeatureKey) :
    sameClass (applyUnionRoot s2 na nb) x y ↔
      sameClass s2 x y ∨ (sameClass s2 x a ∧ sameClass s2 y b) ∨
        (sameClass s2 x b ∧ sameClass s2 y a) := by
  have hkra : keyRoot s2 a = some ra := by
    unfold keyRoot
    rw [hkn_a]
    exact hra
  have hkrb : keyRoot s2 b = some rb := by
    unfold keyRoot
    rw [hkn_b]
    exact hrb
  rw [applyUnionRoot_eq_of_some hra hrb]
  by_cases hr : ra = rb
  · rw [if_pos hr]
    have hab : sameClass s2 a b := ⟨by rw [hkra]; rfl, by rw [hkra, hkrb, hr]⟩
    constructor
    · exact Or.inl
    · rintro (hs | ⟨hx, hy⟩ | ⟨hx, hy⟩)
      · exact hs
      · exact sameClass_trans (sameClass_trans hx hab) (sameClass_symm hy)
      · exact sameClass_trans (sameClass_trans hx (sameClass_symm hab)) (sameClass_symm hy)
  · rw [if_neg hr]
    have hkrR : ∀ z, keyRoot { s2 with
        root := s2.root.map fun nr => (nr.1, if nr.2 = ra then rb else nr.2) } z =
        (keyRoot s2 z).map (fun r => if r = ra then rb else r) := by
      intro z
      unfold keyRoot keyNode nodeRoot
      cases hm : alookup s2.indexToNode z with
      | none => rfl
      | some m => exact alookup_map_value (fun r => if r = ra then rb else r) m
    constructor
    · intro hc
      obtain ⟨hcs, hce⟩ := hc
      rw [hkrR x] at hcs hce
      rw [hkrR y] at hce
      cases hx2 : keyRoot s2 x with
      | none => rw [hx2] at hcs; cases hcs
      | some u =>
        cases hy2 : keyRoot s2 y with
        | none =>
          rw [hx2, hy2] at hce
          cases hce
        | some v =>
          rw [hx2, hy2, Option.map_some', Option.map_some'] at hce
          have hfeq : (if u = ra then rb else u) = (if v = ra then rb else v) :=
            Option.some.inj hce
          have hxra : keyRoot s2 x = some ra → sameClass s2 x a := by
            intro hh
            exact ⟨by rw [hh]; rfl, by rw [hh, hkra]⟩
          have hxrb : keyRoot s2 x = some rb → sameClass s2 x b := by
            intro hh
            exact ⟨by rw [hh]; rfl, by rw [hh, hkrb]⟩
          have hyra : keyRoot s2 y = some ra → sameClass s2 y a := by
            intro hh
            exact ⟨by rw [hh]; rfl, by rw [hh, hkra]⟩
          have hyrb : keyRoot s2 y = some rb → sameClass s2 y b := by
            intro hh
            exact ⟨by rw [hh]; rfl, by rw [hh, hkrb]⟩
          by_cases hu : u = ra <;> by_cases hv : v = ra
          · exact Or.inl ⟨by rw [hx2]; rfl, by rw [hx2, hy2, hu, hv]⟩
          · rw [if_pos hu, if_neg hv] at hfeq
            refine Or.inr (Or.inl ⟨hxra (by rw [hx2, hu]), hyrb (by rw [hy2, ← hfeq])⟩)
          · rw [if_neg hu, if_pos hv] at hfeq
            refine Or.inr (Or.inr ⟨hxrb (by rw [hx2, hfeq]), hyra (by rw [hy2, hv])⟩)
          · rw [if_neg hu, if_neg hv] at hfeq
            exact Or.inl ⟨by rw [hx2]; rfl, by rw [hx2, hy2, hfeq]⟩
    · have hlift : ∀ u v, sameClass s2 u v → sameClass { s2 with
          root := s2.root.map fun nr => (nr.1, if nr.2 = ra then rb else nr.2) } u v := by
        intro u v huv
        refine ⟨?_, ?_⟩
        · rw [hkrR u]
          cases hu : keyRoot s2 u with
          | none =>
            have hcon := huv.1
            rw [hu] at hcon
            cases hcon
          | some w => rfl
        · rw [hkrR u, hkrR v, huv.2]
      have hto_rb : ∀ z, keyRoot s2 z = some ra ∨ keyRoot s2 z = some rb →
          keyRoot { s2 with
            root := s2.root.map fun nr => (nr.1, if nr.2 = ra then rb else nr.2) } z =
            some rb := by
        intro z hz
        rw [hkrR z]
        rcases hz with hz | hz
        · rw [hz, Option.map_some', if_pos rfl]
        · rw [hz, Option.map_some', if_neg (fun he => hr he.symm)]
      rintro (hs | ⟨hx, hy⟩ | ⟨hx, hy⟩)
      · exact hlift x y hs
      · have h1 : keyRoot s2 x = some ra := by rw [hx.2, hkra]
        have h2 : keyRoot s2 y = some rb := by rw [hy.2, hkrb]
        refine ⟨?_, ?_⟩
        · rw [hto_rb x (Or.inl h1)]; rfl
        · rw [hto_rb x (Or.inl h1), hto_rb y (Or.inr h2)]
      · have h1 : keyRoot s2 x = some rb := by rw [hx.2, hkrb]
        have h2 : keyRoot s2 y = some ra := by rw [hy.2, hkra]
        refine ⟨?_, ?_⟩
        · rw [hto_rb x (Or.inr h1)]; rfl
        · rw [hto_rb x (Or.inr h1), hto_rb y (Or.inl h2)]

/-- A key is in the neighbourhood of the edge `(a, b)` relative to state `s`:
already connected to one endpoint, or one of the endpoints itself. -/
def near (s : BuilderState) (a b z : FeatureKey) : Prop :=
  sameClass s z a ∨ sameClass s z b ∨ z = a ∨ z = b

/-- Processing one correspondence edge merges exactly the neighbourhoods of
its two endpoints: the abstract effect of `joinKeys` on the partition. -/
theorem sameClass_joinKeys {s : BuilderState} (hw : WF s) (a b x y : FeatureKey) :
    sameClass (joinKeys s a b) x y ↔
      sameClass s x y ∨ (near s a b x ∧ near s a b y) := by
  have hw1 : WF (resolve s a).2 := hw.resolve a
  have hw2 : WF (resolve (resolve s a).2 b).2 := hw1.resolve b
  have hkn_b : keyNode (resolve (resolve s a).2 b).2 b =
      some (resolve (resolve s a).2 b).1 := keyNode_resolve_self b
  have hkn_a : keyNode (resolve (resolve s a).2 b).2 a = some (resolve s a).1 := by
    by_cases hba : b = a
    · subst hba
      have h1 : keyNode (resolve s b).2 b = some (resolve s b).1 := keyNode_resolve_self b
      rw [resolve_of_found h1]
      exact h1
    · have h1 : keyNode (resolve s a).2 a = some (resolve s a).1 := keyNode_resolve_self a
      rw [keyNode_resolve_other (fun he => hba he.symm)]
      exact h1
  obtain ⟨ra, hra⟩ := Option.isSome_iff_exists.1 (hw2.rootDomSome a _ hkn_a)
  obtain ⟨rb, hrb⟩ := Option.isSome_iff_exists.1 (hw2.rootDomSome b _ hkn_b)
  have hstep := sameClass_applyUnionRoot hkn_a hkn_b hra hrb x y
  have hjoin : joinKeys s a b =
      applyUnionRoot (resolve (resolve s a).2 b).2 (resolve s a).1
        (resolve (resolve s a).2 b).1 := rfl
  rw [hjoin, hstep]
  have SC2 : ∀ u v, sameClass (resolve (resolve s a).2 b).2 u v ↔
      sameClass s u v ∨ (u = a ∧ v = a) ∨ (u = b ∧ v = b) := by
    intro u v
    rw [sameClass_resolve hw1 b u v, sameClass_resolve hw a u v, or_assoc]
  constructor
  · rintro (hc | ⟨hx, hy⟩ | ⟨hx, hy⟩)
    · rcases (SC2 x y).1 hc with hs | ⟨h1, h2⟩ | ⟨h1, h2⟩
      · exact Or.inl hs
      · exact Or.inr ⟨Or.inr (Or.inr (Or.inl h1)), Or.inr (Or.inr (Or.inl h2))⟩
      · exact Or.inr ⟨Or.inr (Or.inr (Or.inr h1)), Or.inr (Or.inr (Or.inr h2))⟩
    · refine Or.inr ⟨?_, ?_⟩
      · rcases (SC2 x a).1 hx with hs | ⟨h1, _⟩ | ⟨h1, _⟩
        · exact Or.inl hs
        · exact Or.inr (Or.inr (Or.inl h1))
        · exact Or.inr (Or.inr (Or.inr h1))
      · rcases (SC2 y b).1 hy with hs | ⟨h1, _⟩ | ⟨h1, _⟩
        · exact Or.inr (Or.inl hs)
        · exact Or.inr (Or.inr (Or.inl h1))
        · exact Or.inr (Or.inr (Or.inr h1))
    · refine Or.inr ⟨?_, ?_⟩
      · rcases (SC2 x b).1 hx with hs | ⟨h1, _⟩ | ⟨h1, _⟩
        · exact Or.inr (Or.inl hs)
        · exact Or.inr (Or.inr (Or.inl h1))
        · exact Or.inr (Or.inr (Or.inr h1))
      · rcases (SC2 y a).1 hy with hs | ⟨h1, _⟩ | ⟨h1, _⟩
        · exact Or.inl hs
        · exact Or.inr (Or.inr (Or.inl h1))
        · exact Or.inr (Or.inr (Or.inr h1))
  · rintro (hs | ⟨hx, hy⟩)
    · exact Or.inl ((SC2 x y).2 (Or.inl hs))
    · rcases hx with hx | hx | hx | hx <;> rcases hy with hy | hy | hy | hy
      · exact Or.inl ((SC2 x y).2 (Or.inl (sameClass_trans hx (sameClass_symm hy))))
      · exact Or.inr (Or.inl ⟨(SC2 x a).2 (Or.inl hx), (SC2 y b).2 (Or.inl hy)⟩)
      · exact Or.inl ((SC2 x y).2 (Or.inl (hy ▸ hx)))
      · exact Or.inr (Or.inl ⟨(SC2 x a).2 (Or.inl hx), (SC2 y b).2 (Or.inr (Or.inr ⟨hy, rfl⟩))⟩)
      · exact Or.inr (Or.inr ⟨(SC2 x b).2 (Or.inl hx), (SC2 y a).2 (Or.inl hy)⟩)
      · exact Or.inl ((SC2 x y).2 (Or.inl (sameClass_trans hx (sameClass_symm hy))))
      · exact Or.inr (Or.inr ⟨(SC2 x b).2 (Or.inl hx), (SC2 y a).2 (Or.inr (Or.inl ⟨hy, rfl⟩))⟩)
      · exact Or.inl ((SC2 x y).2 (Or.inl (hy ▸ hx)))
      · exact Or.inl ((SC2 x y).2 (Or.inl (hx ▸ sameClass_symm hy)))
      · exact Or.inr (Or.inl ⟨(SC2 x a).2 (Or.inr (Or.inl ⟨hx, rfl⟩)), (SC2 y b).2 (Or.inl hy)⟩)
      · exact Or.inl ((SC2 x y).2 (Or.inr (Or.inl ⟨hx, hy⟩)))
      · exact Or.inr (Or.inl ⟨(SC2 x a).2 (Or.inr (Or.inl ⟨hx, rfl⟩)),
          (SC2 y b).2 (Or.inr (Or.inr ⟨hy, rfl⟩))⟩)
      · exact Or.inr (Or.inr ⟨(SC2 x b).2 (Or.inr (Or.inr ⟨hx, rfl⟩)), (SC2 y a).2 (Or.inl hy)⟩)
      · exact Or.inl ((SC2 x y).2 (Or.inl (hx ▸ sameClass_symm hy)))
      · exact Or.inr (Or.inr ⟨(SC2 x b).2 (Or.inr (Or.inr ⟨hx, rfl⟩)),
          (SC2 y a).2 (Or.inr (Or.inl ⟨hy, rfl⟩))⟩)
      · exact Or.inl ((SC2 x y).2 (Or.inr (Or.inr ⟨hx, hy⟩)))

/-- Equivalence closure of a binary relation. -/
inductive Linked {α : Type} (R : α → α → Prop) : α → α → Prop
  | base {a b : α} : R a b → Linked R a b
  | refl (a : α) : Linked R a a
  | symm {a b : α} : Linked R a b → Linked R b a
  | trans {a b c : α} : Linked R a b → Linked R b c → Linked R a c

theorem Linked.mono {α : Type} {R R' : α → α → Prop}
    (hsub : ∀ u v, R u v → R' u v) {x y : α} (h : Linked R x y) : Linked R' x y := by
  induction h with
  | base hr => exact Linked.base (hsub _ _ hr)
  | refl a => exact Linked.refl a
  | symm _ ih => exact ih.symm
  | trans _ _ ih1 ih2 => exact ih1.trans ih2

theorem Linked.endpoints {α : Type} {R : α → α → Prop} {P : α → Prop}
    (hR : ∀ u v, R u v → P u ∧ P v) {x y : α} (h : Linked R x y) :
    x = y ∨ (P x ∧ P y) := by
  induction h with
  | base hr => exact Or.inr (hR _ _ hr)
  | refl a => exact Or.inl rfl
  | symm _ ih =>
    rcases ih with he | hp
    · exact Or.inl he.symm
    · exact Or.inr ⟨hp.2, hp.1⟩
  | trans _ _ ih1 ih2 =>
    rcases ih1 with he1 | hp1
    · rw [he1]
      exact ih2
    · rcases ih2 with he2 | hp2
      · rw [← he2]
        exact Or.inr hp1
      · exact Or.inr ⟨hp1.1, hp2.2⟩

/-- The symmetric one-step relation denoted by a correspondence edge list. -/
def edgeRel (l : List (FeatureKey × FeatureKey)) (x y : FeatureKey) : Prop :=
  (x, y) ∈ l ∨ (y, x) ∈ l

instance (l : List (FeatureKey × FeatureKey)) (x y : FeatureKey) :
    Decidable (edgeRel l x y) := by
  unfold edgeRel
  infer_instance

/-- A key referenced (as either endpoint) by some edge of the list. -/
def touched (l : List (FeatureKey × FeatureKey)) (x : FeatureKey) : Prop :=
  ∃ e ∈ l, x = e.1 ∨ x = e.2

instance (l : List (FeatureKey × FeatureKey)) (x : FeatureKey) :
    Decidable (touched l x) := by
  unfold touched
  infer_instance

/-- Transitive connectivity through the correspondence edges. -/
def linked (l : List (FeatureKey × FeatureKey)) : FeatureKey → FeatureKey → Prop :=
  Linked (edgeRel l)

theorem touched_append {l : List (FeatureKey × FeatureKey)} {a b : FeatureKey}
    (x : FeatureKey) : touched (l ++ [(a, b)]) x ↔ touched l x ∨ x = a ∨ x = b := by
  unfold touched
  constructor
  · rintro ⟨e, he, hx⟩
    rcases List.mem_append.1 he with he | he
    · exact Or.inl ⟨e, he, hx⟩
    · rcases List.mem_singleton.1 he with rfl
      rcases hx with hx | hx
      · exact Or.inr (Or.inl hx)
      · exact Or.inr (Or.inr hx)
  · rintro (⟨e, he, hx⟩ | hx | hx)
    · exact ⟨e, List.mem_append.2 (Or.inl he), hx⟩
    · exact ⟨(a, b), List.mem_append.2 (Or.inr (List.mem_singleton.2 rfl)), Or.inl hx⟩
    · exact ⟨(a, b), List.mem_append.2 (Or.inr (List.mem_singleton.2 rfl)), Or.inr hx⟩

theorem touched_of_edgeRel {l : List (FeatureKey × FeatureKey)} {x y : FeatureKey}
    (h : edgeRel l x y) : touched l x ∧ touched l y := by
  rcases h with h | h
  · exact ⟨⟨(x, y), h, Or.inl rfl⟩, ⟨(x, y), h, Or.inr rfl⟩⟩
  · exact ⟨⟨(y, x), h, Or.inr rfl⟩, ⟨(y, x), h, Or.inl rfl⟩⟩

theorem edgeRel_append {l : List (FeatureKey × FeatureKey)} {a b u v : FeatureKey} :
    edgeRel (l ++ [(a, b)]) u v ↔ edgeRel l u v ∨ (u = a ∧ v = b) ∨ (u = b ∧ v = a) := by
  unfold edgeRel
  simp only [List.mem_append, List.mem_singleton, Prod.mk.injEq]
  constructor
  · rintro ((h | ⟨h1, h2⟩) | (h | ⟨h1, h2⟩))
    · exact Or.inl (Or.inl h)
    · exact Or.inr (Or.inl ⟨h1, h2⟩)
    · exact Or.inl (Or.inr h)
    · exact Or.inr (Or.inr ⟨h2, h1⟩)
  · rintro ((h | h) | ⟨h1, h2⟩ | ⟨h1, h2⟩)
    · exact Or.inl (Or.inl h)
    · exact Or.inr (Or.inl h)
    · exact Or.inl (Or.inr ⟨h1, h2⟩)
    · exact Or.inr (Or.inr ⟨h2, h1⟩)

theorem linked_append_pair {l : List (FeatureKey × FeatureKey)} {a b x y : FeatureKey} :
    linked (l ++ [(a, b)]) x y ↔
      linked l x y ∨ (linked l x a ∧ linked l b y) ∨ (linked l x b ∧ linked l a y) := by
  constructor
  · intro h
    induction h with
    | base hr =>
      rcases edgeRel_append.1 hr with hr | ⟨h1, h2⟩ | ⟨h1, h2⟩
      · exact Or.inl (Linked.base hr)
      · subst h1; subst h2
        exact Or.inr (Or.inl ⟨Linked.refl _, Linked.refl _⟩)
      · subst h1; subst h2
        exact Or.inr (Or.inr ⟨Linked.refl _, Linked.refl _⟩)
    | refl c => exact Or.inl (Linked.refl c)
    | symm _ ih =>
      rcases ih with hl | ⟨h1, h2⟩ | ⟨h1, h2⟩
      · exact Or.inl hl.symm
      · exact Or.inr (Or.inr ⟨h2.symm, h1.symm⟩)
      · exact Or.inr (Or.inl ⟨h2.symm, h1.symm⟩)
    | trans _ _ ih1 ih2 =>
      rcases ih1 with hl1 | ⟨h1, h2⟩ | ⟨h1, h2⟩ <;>
        rcases ih2 with hl2 | ⟨h3, h4⟩ | ⟨h3, h4⟩
      · exact Or.inl (hl1.trans hl2)
      · exact Or.inr (Or.inl ⟨hl1.trans h3, h4⟩)
      · exact Or.inr (Or.inr ⟨hl1.trans h3, h4⟩)
      · exact Or.inr (Or.inl ⟨h1, h2.trans hl2⟩)
      · exact Or.inl ((h1.trans (h2.trans h3).symm).trans h4)
      · exact Or.inl (h1.trans h4)
      · exact Or.inr (Or.inr ⟨h1, h2.trans hl2⟩)
      · exact Or.inl (h1.trans h4)
      · exact Or.inl ((h1.trans (h2.trans h3).symm).trans h4)
  · have hsub : ∀ u v, edgeRel l u v → edgeRel (l ++ [(a, b)]) u v := by
      intro u v hr
      exact edgeRel_append.2 (Or.inl hr)
    have hedge : linked (l ++ [(a, b)]) a b :=
      Linked.base (edgeRel_append.2 (Or.inr (Or.inl ⟨rfl, rfl⟩)))
    rintro (h | ⟨h1, h2⟩ | ⟨h1, h2⟩)
    · exact h.mono hsub
    · exact ((h1.mono hsub).trans hedge).trans (h2.mono hsub)
    · exact ((h1.mono hsub).trans hedge.symm).trans (h2.mono hsub)

theorem build_append_single (l : List (FeatureKey × FeatureKey))
    (e : FeatureKey × FeatureKey) :
    build (l ++ [e]) = joinKeys (build l) e.1 e.2 := by
  unfold build
  rw [List.foldl_append]
  rfl

/-- Two keys are in the same class after `build` exactly when both are
referenced by some edge and they are transitively connected by the edges. -/
theorem sameClass_build_iff (l : List (FeatureKey × FeatureKey)) (x y : FeatureKey) :
    sameClass (build l) x y ↔ touched l x ∧ touched l y ∧ linked l x y := by
  induction l using List.reverseRecOn generalizing x y with
  | nil =>
    simp [sameClass, keyRoot, keyNode, nodeRoot, build, emptyBuilder, alookup, touched]
  | append_singleton l e ih =>
    obtain ⟨a, b⟩ := e
    rw [build_append_single, sameClass_joinKeys (wf_build l) a b x y]
    have hsub : ∀ u v, edgeRel l u v → edgeRel (l ++ [(a, b)]) u v := by
      intro u v hr
      exact edgeRel_append.2 (Or.inl hr)
    have hedge : linked (l ++ [(a, b)]) a b :=
      Linked.base (edgeRel_append.2 (Or.inr (Or.inl ⟨rfl, rfl⟩)))
    have Htl : ∀ u v, linked l u v → u = v ∨ (touched l u ∧ touched l v) :=
      fun u v h => Linked.endpoints (fun _ _ hr => touched_of_edgeRel hr) h
    constructor
    · rintro (hs | ⟨hx, hy⟩)
      · obtain ⟨tx, ty, hlk⟩ := (ih x y).1 hs
        exact ⟨(touched_append x).2 (Or.inl tx), (touched_append y).2 (Or.inl ty),
          hlk.mono hsub⟩
      · have hna : ∀ z, near (build l) a b z →
            touched (l ++ [(a, b)]) z ∧ linked (l ++ [(a, b)]) z a := by
          intro z hz
          rcases hz with hz | hz | hz | hz
          · obtain ⟨tz, _, hlk⟩ := (ih z a).1 hz
            exact ⟨(touched_append z).2 (Or.inl tz), hlk.mono hsub⟩
          · obtain ⟨tz, _, hlk⟩ := (ih z b).1 hz
            exact ⟨(touched_append z).2 (Or.inl tz), (hlk.mono hsub).trans hedge.symm⟩
          · subst hz
            exact ⟨(touched_append z).2 (Or.inr (Or.inl rfl)), Linked.refl z⟩
          · subst hz
            exact ⟨(touched_append z).2 (Or.inr (Or.inr rfl)), hedge.symm⟩
        obtain ⟨txa, hxa⟩ := hna x hx
        obtain ⟨tya, hya⟩ := hna y hy
        exact ⟨txa, tya, hxa.trans hya.symm⟩
    · rintro ⟨tx, ty, hlk⟩
      rcases linked_append_pair.1 hlk with hl | ⟨h1, h2⟩ | ⟨h1, h2⟩
      · rcases Htl x y hl with he | ⟨tx', ty'⟩
        · subst he
          rcases (touched_append x).1 tx with t | hxa | hxb
          · exact Or.inl ((ih x x).2 ⟨t, t, Linked.refl x⟩)
          · exact Or.inr ⟨Or.inr (Or.inr (Or.inl hxa)), Or.inr (Or.inr (Or.inl hxa))⟩
          · exact Or.inr ⟨Or.inr (Or.inr (Or.inr hxb)), Or.inr (Or.inr (Or.inr hxb))⟩
        · exact Or.inl ((ih x y).2 ⟨tx', ty', hl⟩)
      · have nx : near (build l) a b x := by
          rcases Htl x a h1 with he | ⟨tx', ta'⟩
          · exact Or.inr (Or.inr (Or.inl he))
          · exact Or.inl ((ih x a).2 ⟨tx', ta', h1⟩)
        have ny : near (build l) a b y := by
          rcases Htl b y h2 with he | ⟨tb', ty'⟩
          · exact Or.inr (Or.inr (Or.inr he.symm))
          · exact Or.inr (Or.inl ((ih y b).2 ⟨ty', tb', h2.symm⟩))
        exact Or.inr ⟨nx, ny⟩
      · have nx : near (build l) a b x := by
          rcases Htl x b h1 with he | ⟨tx', tb'⟩
          · exact Or.inr (Or.inr (Or.inr he))
          · exact Or.inr (Or.inl ((ih x b).2 ⟨tx', tb', h1⟩))
        have ny : near (build l) a b y := by
          rcases Htl a y h2 with he | ⟨ta', ty'⟩
          · exact Or.inr (Or.inr (Or.inl he.symm))
          · exact Or.inl ((ih y a).2 ⟨ty', ta', h2.symm⟩)
        exact Or.inr ⟨nx, ny⟩

/-- The distinct class representatives present in the union-find structure
(in a well-formed state every root entry stores the representative of its
node's class, so the distinct stored values enumerate the classes). -/
def rootsList (s : BuilderState) : List Nat :=
  (s.root.map Prod.snd).dedup

/-- `TracksBuilder::nbTracks` (translated from the inline body in
`Track.hpp`): the number of connected sets in the union-find structure,
obtained by enumerating its classes. -/
def nbTracks (s : BuilderState) : Nat :=
  (rootsList s).length

/-- The nodes of the class with representative `r`. -/
def classOfNodes (s : BuilderState) (r : Nat) : List Nat :=
  (s.root.filter fun nr => decide (nr.2 = r)).map Prod.fst

/-- All classes of the union-find structure, as node lists. -/
def classesList (s : BuilderState) : List (List Nat) :=
  (rootsList s).map (classOfNodes s)

/-- The feature keys of the class with representative `r` (class items read
back through the node to key map). -/
def keyClassKeys (s : BuilderState) (r : Nat) : List FeatureKey :=
  (s.indexToNode.filter fun kn => decide (alookup s.root kn.2 = some r)).map Prod.fst

/-- All classes of the union-find structure, as feature-key lists. -/
def keyClassesList (s : BuilderState) : List (List FeatureKey) :=
  (rootsList s).map (keyClassKeys s)

/-- Modelled from the spec: the rejection test of `TracksBuilder::filter` on
one class.  A class is rejected when `clearForks` is set and two of its
observations share a view id (the number of distinct view ids differs from
the number of observations), or when it spans fewer than `minTrackLength`
distinct view ids. -/
def rejectedClass (clearForks : Bool) (minTrackLength : Nat) (c : List FeatureKey) : Bool :=
  (clearForks && decide ((c.map viewOf).dedup.length ≠ c.length)) ||
    decide ((c.map viewOf).dedup.length < minTrackLength)

/-- Modelled from the spec: `TracksBuilder::filter(clearForks, minTrackLength)`
(no body in the repository snapshot).  Every class is evaluated against the
pre-filter state, and each rejected class is then erased whole from the
union-find structure in a separate commit step; the evaluation order of
classes is irrelevant because each decision only reads the pre-filter state. -/
def filter (s : BuilderState) (clearForks : Bool) (minTrackLength : Nat) : BuilderState :=
  { s with root := s.root.filter fun nr =>
      !(rejectedClass clearForks minTrackLength (keyClassKeys s nr.2)) }

/-- `Track` of `Track.hpp`: one describer type and the collection of
matched features `{viewId, featureId}` (a flat map keyed by view id). -/
structure Track where
  descType : Nat
  featPerView : List (Nat × Nat)
deriving DecidableEq

/-- Insert-or-assign on a flat map (`featPerView[viewId] = featureIndex`). -/
def mapInsert (m : List (Nat × Nat)) (k v : Nat) : List (Nat × Nat) :=
  if (alookup m k).isSome then m.map fun p => if p.1 = k then (k, v) else p
  else m ++ [(k, v)]

/-- Modelled from the spec: materialization of one class into a `Track`
record — one `featPerView` entry per view id (a later observation of an
already present view overwrites it, flat-map assignment semantics) and the
describer type of the last enumerated observation. -/
def materializeClass (c : List FeatureKey) : Track :=
  { descType := c.foldl (fun _ k => k.2.1) 0
    featPerView := c.foldl (fun m k => mapInsert m k.1 k.2.2) [] }

/-- Consecutive track-id assignment, in class enumeration order. -/
def withIds (start : Nat) : List Track → List (Nat × Track)
  | [] => []
  | t :: ts => (start, t) :: withIds (start + 1) ts

/-- Modelled from the spec: `TracksBuilder::exportToSTL` (no body in the
repository snapshot) — every class still present in the union-find
structure is materialized under a fresh consecutive track id. -/
def exportToSTL (s : BuilderState) : List (Nat × Track) :=
  withIds 0 ((keyClassesList s).map materializeClass)

theorem mem_withIds {p : Nat × Track} :
    ∀ {n : Nat} {ts : List Track}, p ∈ withIds n ts → p.2 ∈ ts := by
  intro n ts
  induction ts generalizing n with
  | nil => intro h; cases h
  | cons t ts ih =>
    intro h
    rcases List.mem_cons.1 h with h | h
    · rw [h]
      exact List.mem_cons_self t ts
    · exact List.mem_cons_of_mem t (ih h)

theorem mem_rootsList {s : BuilderState} {r : Nat} :
    r ∈ rootsList s ↔ ∃ n, (n, r) ∈ s.root := by
  unfold rootsList
  rw [List.mem_dedup, List.mem_map]
  constructor
  · rintro ⟨e, he, hr⟩
    exact ⟨e.1, by rw [show (e.1, r) = e from by rw [← hr]]; exact he⟩
  · rintro ⟨n, hn⟩
    exact ⟨(n, r), hn, rfl⟩

theorem mem_classOfNodes {s : BuilderState} {r n : Nat} :
    n ∈ classOfNodes s r ↔ (n, r) ∈ s.root := by
  unfold classOfNodes
  rw [List.mem_map]
  constructor
  · rintro ⟨e, he, hn⟩
    have hmem := List.mem_of_mem_filter he
    have hpred := List.of_mem_filter he
    have he2 : e.2 = r := of_decide_eq_true hpred
    rw [show (n, r) = e from by rw [← hn, ← he2]]
    exact hmem
  · intro hn
    refine ⟨(n, r), List.mem_filter.2 ⟨hn, ?_⟩, rfl⟩
    exact decide_eq_true rfl

theorem dedup_length_le_of_sublist {l1 l2 : List Nat} (h : l1.Sublist l2) :
    l1.dedup.length ≤ l2.dedup.length := by
  rw [← List.card_toFinset, ← List.card_toFinset]
  apply Finset.card_le_card
  intro x hx
  rw [List.mem_toFinset] at hx ⊢
  exact h.subset hx

theorem nodup_of_dedup_length_eq {l : List Nat} (h : l.dedup.length = l.length) :
    l.Nodup := by
  have heq := List.Sublist.eq_of_length (List.dedup_sublist l) h
  rw [← heq]
  exact List.nodup_dedup l

/-- `nbTracks` never increases across a `filter` invocation. -/
theorem nbTracks_filter_le (s : BuilderState) (cf : Bool) (ml : Nat) :
    nbTracks (filter s cf ml) ≤ nbTracks s := by
  unfold nbTracks rootsList filter
  exact dedup_length_le_of_sublist ((List.filter_sublist _).map Prod.snd)

theorem rejectedClass_false_floor {cf : Bool} {ml : Nat} {c : List FeatureKey}
    (h : rejectedClass cf ml c = false) : ml ≤ (c.map viewOf).dedup.length := by
  unfold rejectedClass at h
  have h2 : decide ((c.map viewOf).dedup.length < ml) = false := by
    rcases Bool.or_eq_false_iff.1 h with ⟨_, h2⟩
    exact h2
  exact Nat.le_of_not_lt (of_decide_eq_false h2)

theorem rejectedClass_false_nodup {ml : Nat} {c : List FeatureKey}
    (h : rejectedClass true ml c = false) : (c.map viewOf).Nodup := by
  unfold rejectedClass at h
  rcases Bool.or_eq_false_iff.1 h with ⟨h1, _⟩
  rw [Bool.true_and] at h1
  have hne := of_decide_eq_false h1
  have hlen : (c.map viewOf).dedup.length = (c.map viewOf).length := by
    rw [List.length_map]
    exact not_not.1 hne
  exact nodup_of_dedup_length_eq hlen

theorem keyClassKeys_filter {s : BuilderState} (hw : WF s) {cf : Bool} {ml : Nat} {r : Nat}
    (hkeep : rejectedClass cf ml (keyClassKeys s r) = false) :
    keyClassKeys (filter s cf ml) r = keyClassKeys s r := by
  unfold keyClassKeys filter
  congr 1
  apply List.filter_congr
  intro kn _
  apply decide_eq_decide.2
  constructor
  · intro h
    exact (alookup_filter_sub hw.rootKeysNodup h).1
  · intro h
    apply alookup_filter_of_keep h
    rw [show ((kn.2, r) : Nat × Nat).2 = r from rfl]
    rw [Bool.not_eq_true']
    exact hkeep

/-- Every track of the exported table of a filtered builder comes whole from
a class of the pre-filter state that passed the rejection test. -/
theorem export_filter_class {s : BuilderState} (hw : WF s) {cf : Bool} {ml : Nat}
    {tid : Nat} {tr : Track}
    (h : (tid, tr) ∈ exportToSTL (filter s cf ml)) :
    ∃ r, r ∈ rootsList s ∧ rejectedClass cf ml (keyClassKeys s r) = false ∧
      tr = materializeClass (keyClassKeys s r) := by
  unfold exportToSTL at h
  have htr : tr ∈ (keyClassesList (filter s cf ml)).map materializeClass :=
    mem_withIds h
  rcases List.mem_map.1 htr with ⟨c, hc, hmat⟩
  unfold keyClassesList at hc
  rcases List.mem_map.1 hc with ⟨r, hr, hck⟩
  rcases mem_rootsList.1 hr with ⟨n, hn⟩
  have hmemf := List.mem_of_mem_filter hn
  have hpred := List.of_mem_filter hn
  have hkeep : rejectedClass cf ml (keyClassKeys s r) = false := by
    rw [show ((n, r) : Nat × Nat).2 = r from rfl] at hpred
    rw [← Bool.not_eq_true']
    exact hpred
  refine ⟨r, mem_rootsList.2 ⟨n, hmemf⟩, hkeep, ?_⟩
  rw [← hmat, ← hck, keyClassKeys_filter hw hkeep]

theorem mapInsert_keys_of_present {m : List (Nat × Nat)} {k : Nat} (v : Nat)
    (h : (alookup m k).isSome) :
    (mapInsert m k v).map Prod.fst = m.map Prod.fst := by
  unfold mapInsert
  rw [if_pos h, List.map_map]
  apply List.map_congr_left
  intro p _
  by_cases hp : p.1 = k
  · simp [hp]
  · simp [hp]

theorem mapInsert_keys_of_absent {m : List (Nat × Nat)} {k : Nat} (v : Nat)
    (h : alookup m k = none) :
    (mapInsert m k v).map Prod.fst = m.map Prod.fst ++ [k] := by
  unfold mapInsert
  rw [if_neg (by rw [h]; exact fun hc => by cases hc)]
  rw [List.map_append]
  rfl

theorem mapInsert_keys_nodup {m : List (Nat × Nat)} {k v : Nat}
    (h : (m.map Prod.fst).Nodup) : ((mapInsert m k v).map Prod.fst).Nodup := by
  cases hs : alookup m k with
  | some w =>
    rw [mapInsert_keys_of_present v (by rw [hs]; rfl)]
    exact h
  | none =>
    rw [mapInsert_keys_of_absent v hs]
    apply (List.perm_append_singleton k (m.map Prod.fst)).symm.nodup
    rw [List.nodup_cons]
    exact ⟨not_mem_of_alookup_eq_none hs, h⟩

theorem mem_mapInsert_keys {m : List (Nat × Nat)} {k v x : Nat} :
    x ∈ (mapInsert m k v).map Prod.fst ↔ x ∈ m.map Prod.fst ∨ x = k := by
  cases hs : alookup m k with
  | some w =>
    rw [mapInsert_keys_of_present v (by rw [hs]; rfl)]
    constructor
    · exact Or.inl
    · rintro (h | h)
      · exact h
      · rw [h]
        exact List.mem_map_of_mem Prod.fst (mem_of_alookup hs)
  | none =>
    rw [mapInsert_keys_of_absent v hs, List.mem_append, List.mem_singleton]

theorem foldl_mapInsert_eq_append :
    ∀ (pairs acc : List (Nat × Nat)), (((acc ++ pairs).map Prod.fst)).Nodup →
      pairs.foldl (fun m p => mapInsert m p.1 p.2) acc = acc ++ pairs := by
  intro pairs
  induction pairs with
  | nil =>
    intro acc _
    simp
  | cons p rest ih =>
    intro acc h
    have hnd := h
    rw [List.map_append, List.nodup_append] at hnd
    have hp1 : (p.1 : Nat) ∈ (p :: rest).map Prod.fst := by
      rw [List.map_cons]
      exact List.mem_cons_self _ _
    have hnotin : p.1 ∉ acc.map Prod.fst := fun hmem => hnd.2.2 hmem hp1
    have habs : alookup acc p.1 = none := alookup_eq_none_of_not_mem hnotin
    rw [List.foldl_cons]
    have hins : mapInsert acc p.1 p.2 = acc ++ [p] := by
      unfold mapInsert
      rw [if_neg (by rw [habs]; exact fun hc => by cases hc)]
    rw [hins]
    have hassoc : (acc ++ [p]) ++ rest = acc ++ p :: rest := by
      rw [List.append_assoc, List.singleton_append]
    rw [ih (acc ++ [p]) (by rw [hassoc]; exact h), hassoc]

theorem foldl_mapInsert_keys :
    ∀ (pairs acc : List (Nat × Nat)), ((acc.map Prod.fst)).Nodup →
      (((pairs.foldl (fun m p => mapInsert m p.1 p.2) acc).map Prod.fst).Nodup ∧
        ∀ x, x ∈ (pairs.foldl (fun m p => mapInsert m p.1 p.2) acc).map Prod.fst ↔
          x ∈ acc.map Prod.fst ∨ x ∈ pairs.map Prod.fst) := by
  intro pairs
  induction pairs with
  | nil =>
    intro acc h
    refine ⟨h, fun x => ?_⟩
    simp
  | cons p rest ih =>
    intro acc h
    rw [List.foldl_cons]
    obtain ⟨hnd, hmem⟩ := ih (mapInsert acc p.1 p.2) (mapInsert_keys_nodup h)
    refine ⟨hnd, fun x => ?_⟩
    rw [hmem x, mem_mapInsert_keys, List.map_cons, List.mem_cons]
    constructor
    · rintro ((hx | hx) | hx)
      · exact Or.inl hx
      · exact Or.inr (Or.inl hx)
      · exact Or.inr (Or.inr hx)
    · rintro (hx | hx | hx)
      · exact Or.inl (Or.inl hx)
      · exact Or.inl (Or.inr hx)
      · exact Or.inr hx

theorem materialize_featPerView_eq {c : List FeatureKey} :
    (materializeClass c).featPerView =
      (c.map fun k => (k.1, k.2.2)).foldl (fun m p => mapInsert m p.1 p.2) [] := by
  unfold materializeClass
  rw [List.foldl_map]

theorem pairs_keys_eq_views (c : List FeatureKey) :
    ((c.map fun k => ((k.1 : Nat), (k.2.2 : Nat))).map Prod.fst) = c.map viewOf := by
  rw [List.map_map]
  rfl

theorem materialize_featPerView_of_nodup {c : List FeatureKey}
    (hnd : (c.map viewOf).Nodup) :
    (materializeClass c).featPerView = c.map fun k => (k.1, k.2.2) := by
  rw [materialize_featPerView_eq]
  have h := foldl_mapInsert_eq_append (c.map fun k => (k.1, k.2.2)) []
  rw [List.nil_append] at h
  exact h (by rw [pairs_keys_eq_views]; exact hnd)

theorem materialize_featPerView_keys (c : List FeatureKey) :
    (((materializeClass c).featPerView.map Prod.fst).Nodup ∧
      ∀ x, x ∈ (materializeClass c).featPerView.map Prod.fst ↔ x ∈ c.map viewOf) := by
  rw [materialize_featPerView_eq]
  obtain ⟨hnd, hmem⟩ :=
    foldl_mapInsert_keys (c.map fun k => (k.1, k.2.2)) [] List.nodup_nil
  refine ⟨hnd, fun x => ?_⟩
  rw [hmem x, pairs_keys_eq_views]
  simp

theorem materialize_featPerView_length (c : List FeatureKey) :
    (materializeClass c).featPerView.length = (c.map viewOf).dedup.length := by
  obtain ⟨hnd, hmem⟩ := materialize_featPerView_keys c
  have hperm : ((materializeClass c).featPerView.map Prod.fst).Perm
      (c.map viewOf).dedup := by
    apply (List.perm_ext_iff_of_nodup hnd (List.nodup_dedup _)).2
    intro x
    rw [hmem x, List.mem_dedup]
  have hlen := hperm.length_eq
  rw [List.length_map] at hlen
  exact hlen

namespace tracksUtilsMap

/-- `tracksUtilsMap::getTracksInImage`, translated from the inline body in
`Track.hpp`: the output set is cleared, then the id of every track whose
`featPerView` contains the view is inserted. -/
def getTracksInImage (imageIndex : Nat) (tracks : List (Nat × Track)) : List Nat :=
  (tracks.filter fun t => (alookup t.2.featPerView imageIndex).isSome).map Prod.fst

/-- `tracksUtilsMap::getTracksInImageFast`, translated from the inline body
in `Track.hpp`: when the view id is absent from the per-view index the
function returns immediately — before the `clear()` — leaving the output
set exactly as the caller passed it (`tracksIds` is the caller-supplied
output set); otherwise the output is cleared and filled with the view's
track list. -/
def getTracksInImageFast (imageId : Nat) (tracksPerView : List (Nat × List Nat))
    (tracksIds : List Nat) : List Nat :=
  match alookup tracksPerView imageId with
  | none => tracksIds
  | some imageTracks => imageTracks

/-- `tracksUtilsMap::tracksToIndexedMatches`, translated from the inline
body in `Track.hpp`: for every requested track id the track found by linear
search (`std::find_if`) is dereferenced unconditionally — the failed search
dereferences the end iterator, modelled as the failure value `none` — and
`assert(featPerView.size() == 2)` is modelled as `none` when violated;
otherwise the ordered pair of the track's two feature indices is emitted. -/
def tracksToIndexedMatches (tracks : List (Nat × Track)) :
    List Nat → Option (List (Nat × Nat))
  | [] => some []
  | i :: rest =>
      match tracks.find? (fun t => decide (t.1 = i)) with
      | none => none
      | some t =>
          match t.2.featPerView with
          | [pI, pJ] =>
              match tracksToIndexedMatches tracks rest with
              | none => none
              | some l => some ((pI.2, pJ.2) :: l)
          | _ => none

/-- Restriction of a track to the queried views: both common-track queries
copy, for every common track, only the feature entries of those views. -/
def restrictTrack (tr : Track) (views : List Nat) : Track :=
  { descType := tr.descType
    featPerView := tr.featPerView.filter fun p => decide (p.1 ∈ views) }

/-- Modelled from the spec: `getCommonTracksInImages` (slow variant, no body
in the repository snapshot) — scan the full track table and keep every
track whose `featPerView` contains all queried views. -/
def getCommonTracksInImages (imageIndexes : List Nat)
    (tracksIn : List (Nat × Track)) : List (Nat × Track) :=
  (tracksIn.filter fun t =>
      imageIndexes.all fun v => (alookup t.2.featPerView v).isSome).map
    fun t => (t.1, restrictTrack t.2 imageIndexes)

/-- Sorted-list intersection by linear merge (`std::set_intersection`). -/
def interSorted : List Nat → List Nat → List Nat
  | [], _ => []
  | _, [] => []
  | a :: as, b :: bs =>
      if a < b then interSorted as (b :: bs)
      else if b < a then interSorted (a :: as) bs
      else a :: interSorted as bs
termination_by l1 l2 => l1.length + l2.length

/-- The track list of one view in the per-view index (empty when absent). -/
def viewTracks (tracksPerView : List (Nat × List Nat)) (v : Nat) : List Nat :=
  (alookup tracksPerView v).getD []

/-- Modelled from the spec: the common-track id set of the fast variant —
the first view's sorted track list, merge-intersected with every further
view's list; a view absent from the index contributes an empty list. -/
def commonTrackIds (imageIndexes : List Nat)
    (tracksPerView : List (Nat × List Nat)) : List Nat :=
  match imageIndexes with
  | [] => []
  | v :: vs =>
      vs.foldl (fun acc v2 => interSorted acc (viewTracks tracksPerView v2))
        (viewTracks tracksPerView v)

/-- Modelled from the spec: `getCommonTracksInImagesFast` (no body in the
repository snapshot) — intersect the per-view sorted id lists, then
materialize each common id found in the track table. -/
def getCommonTracksInImagesFast (imageIndexes : List Nat)
    (tracksIn : List (Nat × Track))
    (tracksPerView : List (Nat × List Nat)) : List (Nat × Track) :=
  (commonTrackIds imageIndexes tracksPerView).filterMap fun tid =>
    (alookup tracksIn tid).map fun tr => (tid, restrictTrack tr imageIndexes)

theorem interSorted_sublist_left (l1 l2 : List Nat) : (interSorted l1 l2).Sublist l1 := by
  induction l1, l2 using interSorted.induct with
  | case1 l2 => simp [interSorted]
  | case2 l1 h => cases l1 <;> simp [interSorted]
  | case3 a as b bs hab ih =>
      simp only [interSorted, if_pos hab]
      exact ih.cons a
  | case4 a as b bs hab hba ih =>
      simp only [interSorted, if_neg hab, if_pos hba]
      exact ih
  | case5 a as b bs hab hba ih =>
      simp only [interSorted, if_neg hab, if_neg hba]
      exact ih.cons₂ a

theorem mem_interSorted {l1 l2 : List Nat}
    (h1 : l1.Pairwise (· < ·)) (h2 : l2.Pairwise (· < ·)) (x : Nat) :
    x ∈ interSorted l1 l2 ↔ x ∈ l1 ∧ x ∈ l2 := by
  induction l1, l2 using interSorted.induct with
  | case1 l2 => simp [interSorted]
  | case2 l1 h => cases l1 <;> simp [interSorted]
  | case3 a as b bs hab ih =>
      rw [List.pairwise_cons] at h1
      simp only [interSorted, if_pos hab]
      rw [ih h1.2 h2]
      constructor
      · rintro ⟨hx1, hx2⟩
        exact ⟨List.mem_cons_of_mem a hx1, hx2⟩
      · rintro ⟨hx1, hx2⟩
        rcases List.mem_cons.1 hx1 with hx1 | hx1
        · exfalso
          subst hx1
          rcases List.mem_cons.1 hx2 with hb | hb
          · exact Nat.lt_irrefl x (hb ▸ hab)
          · rw [List.pairwise_cons] at h2
            exact Nat.lt_irrefl x (Nat.lt_trans hab (h2.1 x hb))
        · exact ⟨hx1, hx2⟩
  | case4 a as b bs hab hba ih =>
      rw [List.pairwise_cons] at h2
      simp only [interSorted, if_neg hab, if_pos hba]
      rw [ih h1 h2.2]
      constructor
      · rintro ⟨hx1, hx2⟩
        exact ⟨hx1, List.mem_cons_of_mem b hx2⟩
      · rintro ⟨hx1, hx2⟩
        rcases List.mem_cons.1 hx2 with hx2 | hx2
        · exfalso
          subst hx2
          rcases List.mem_cons.1 hx1 with ha | ha
          · exact Nat.lt_irrefl x (ha ▸ hba)
          · rw [List.pairwise_cons] at h1
            exact Nat.lt_irrefl x (Nat.lt_trans hba (h1.1 x ha))
        · exact ⟨hx1, hx2⟩
  | case5 a as b bs hab hba ih =>
      have heq : a = b := Nat.le_antisymm (Nat.le_of_not_lt hba) (Nat.le_of_not_lt hab)
      rw [List.pairwise_cons] at h1 h2
      simp only [interSorted, if_neg hab, if_neg hba]
      rw [List.mem_cons, ih h1.2 h2.2, List.mem_cons, List.mem_cons, ← heq]
      constructor
      · rintro (hx | ⟨hx1, hx2⟩)
        · exact ⟨Or.inl hx, Or.inl hx⟩
        · exact ⟨Or.inr hx1, Or.inr hx2⟩
      · rintro ⟨hx1 | hx1, hx2 | hx2⟩
        · exact Or.inl hx1
        · exact Or.inl hx1
        · exact Or.inl hx2
        · exact Or.inr ⟨hx1, hx2⟩

theorem mem_foldl_interSorted {tpv : List (Nat × List Nat)}
    (hsorted : ∀ v, (viewTracks tpv v).Pairwise (· < ·)) (x : Nat) :
    ∀ (vs : List Nat) (acc : List Nat), acc.Pairwise (· < ·) →
      (x ∈ vs.foldl (fun acc v2 => interSorted acc (viewTracks tpv v2)) acc ↔
        x ∈ acc ∧ ∀ v ∈ vs, x ∈ viewTracks tpv v) := by
  intro vs
  induction vs with
  | nil =>
    intro acc _
    simp
  | cons v vs ih =>
    intro acc hacc
    rw [List.foldl_cons]
    have hacc2 : (interSorted acc (viewTracks tpv v)).Pairwise (· < ·) :=
      hacc.sublist (interSorted_sublist_left acc (viewTracks tpv v))
    rw [ih _ hacc2, mem_interSorted hacc (hsorted v) x]
    constructor
    · rintro ⟨⟨hx1, hx2⟩, hall⟩
      refine ⟨hx1, fun u hu => ?_⟩
      rcases List.mem_cons.1 hu with hu | hu
      · rw [hu]
        exact hx2
      · exact hall u hu
    · rintro ⟨hx1, hall⟩
      exact ⟨⟨hx1, hall v (List.mem_cons_self v vs)⟩,
        fun u hu => hall u (List.mem_cons_of_mem v hu)⟩

theorem mem_commonTrackIds {tpv : List (Nat × List Nat)} {v : Nat} {vs : List Nat}
    (hsorted : ∀ u, (viewTracks tpv u).Pairwise (· < ·)) (x : Nat) :
    x ∈ commonTrackIds (v :: vs) tpv ↔ ∀ u ∈ v :: vs, x ∈ viewTracks tpv u := by
  unfold commonTrackIds
  rw [mem_foldl_interSorted hsorted x vs (viewTracks tpv v) (hsorted v)]
  constructor
  · rintro ⟨hx1, hall⟩
    intro u hu
    rcases List.mem_cons.1 hu with hu | hu
    · rw [hu]
      exact hx1
    · exact hall u hu
  · intro hall
    exact ⟨hall v (List.mem_cons_self v vs),
      fun u hu => hall u (List.mem_cons_of_mem v hu)⟩

theorem mem_getCommonTracksInImages {views : List Nat} {tracks : List (Nat × Track)}
    {tid : Nat} {tr : Track} :
    (tid, tr) ∈ getCommonTracksInImages views tracks ↔
      ∃ t1, t1 ∈ tracks ∧ t1.1 = tid ∧
        (∀ v ∈ views, (alookup t1.2.featPerView v).isSome) ∧
        tr = restrictTrack t1.2 views := by
  unfold getCommonTracksInImages
  rw [List.mem_map]
  constructor
  · rintro ⟨t1, ht1, heq⟩
    have hmem := List.mem_of_mem_filter ht1
    have hpred := List.of_mem_filter ht1
    have h1 : t1.1 = tid := congrArg Prod.fst heq
    have h2 : tr = restrictTrack t1.2 views := (congrArg Prod.snd heq).symm
    refine ⟨t1, hmem, h1, fun v hv => ?_, h2⟩
    exact List.all_eq_true.1 hpred v hv
  · rintro ⟨t1, hmem, htid, hall, htr⟩
    refine ⟨t1, List.mem_filter.2 ⟨hmem, List.all_eq_true.2 fun v hv => hall v hv⟩, ?_⟩
    rw [htid, ← htr]

theorem mem_getCommonTracksInImagesFast {views : List Nat} {tracks : List (Nat × Track)}
    {tpv : List (Nat × List Nat)} {tid : Nat} {tr : Track} :
    (tid, tr) ∈ getCommonTracksInImagesFast views tracks tpv ↔
      tid ∈ commonTrackIds views tpv ∧
        ∃ tr0, alookup tracks tid = some tr0 ∧ tr = restrictTrack tr0 views := by
  unfold getCommonTracksInImagesFast
  rw [List.mem_filterMap]
  constructor
  · rintro ⟨t0, ht0, hf⟩
    cases ha : alookup tracks t0 with
    | none =>
      rw [ha] at hf
      cases hf
    | some tr0 =>
      rw [ha, Option.map_some'] at hf
      have h1 : t0 = tid := congrArg Prod.fst (Option.some.inj hf)
      have h2 : restrictTrack tr0 views = tr := congrArg Prod.snd (Option.some.inj hf)
      subst h1
      exact ⟨ht0, tr0, ha, h2.symm⟩
  · rintro ⟨hin, tr0, ha, htr⟩
    refine ⟨tid, hin, ?_⟩
    rw [ha, Option.map_some', htr]

end tracksUtilsMap

/-- The partition after `build` depends only on edge membership. -/
theorem sameClass_build_congr {l1 l2 : List (FeatureKey × FeatureKey)}
    (hmem : ∀ e, e ∈ l1 ↔ e ∈ l2) (x y : FeatureKey) :
    sameClass (build l1) x y ↔ sameClass (build l2) x y := by
  rw [sameClass_build_iff, sameClass_build_iff]
  have htouch : ∀ z, touched l1 z ↔ touched l2 z := by
    intro z
    unfold touched
    constructor
    · rintro ⟨e, he, hz⟩
      exact ⟨e, (hmem e).1 he, hz⟩
    · rintro ⟨e, he, hz⟩
      exact ⟨e, (hmem e).2 he, hz⟩
  have hrel : ∀ u v, edgeRel l1 u v ↔ edgeRel l2 u v := by
    intro u v
    unfold edgeRel
    rw [hmem (u, v), hmem (v, u)]
  have hlink : linked l1 x y ↔ linked l2 x y :=
    ⟨fun h => h.mono fun u v hr => (hrel u v).1 hr,
     fun h => h.mono fun u v hr => (hrel u v).2 hr⟩
  rw [htouch x, htouch y, hlink]

theorem indexToNode_applyUnionRoot (s : BuilderState) (na nb : Nat) :
    (applyUnionRoot s na nb).indexToNode = s.indexToNode := by
  cases ha : alookup s.root na with
  | none =>
    unfold applyUnionRoot
    rw [ha]
  | some ra =>
    cases hb : alookup s.root nb with
    | none =>
      unfold applyUnionRoot
      rw [ha, hb]
    | some rb =>
      rw [applyUnionRoot_eq_of_some ha hb]
      by_cases hr : ra = rb
      · rw [if_pos hr]
      · rw [if_neg hr]

theorem keyNode_mono_joinKeys {s : BuilderState} {k : FeatureKey} {n : Nat}
    (h : keyNode s k = some n) (a b : FeatureKey) :
    keyNode (joinKeys s a b) k = some n := by
  have h1 : keyNode (resolve s a).2 k = some n := by
    by_cases hk : k = a
    · subst hk
      rw [resolve_of_found h]
      exact h
    · rw [keyNode_resolve_other hk]
      exact h
  have h2 : keyNode (resolve (resolve s a).2 b).2 k = some n := by
    by_cases hk : k = b
    · subst hk
      rw [resolve_of_found h1]
      exact h1
    · rw [keyNode_resolve_other hk]
      exact h1
  show keyNode (applyUnionRoot (resolve (resolve s a).2 b).2 (resolve s a).1
      (resolve (resolve s a).2 b).1) k = some n
  unfold keyNode
  rw [indexToNode_applyUnionRoot]
  exact h2

theorem keyNode_mono_build {l : List (FeatureKey × FeatureKey)}
    {k : FeatureKey} {n : Nat} (more : List (FeatureKey × FeatureKey))
    (h : keyNode (build l) k = some n) : keyNode (build (l ++ more)) k = some n := by
  have main : ∀ (more : List (FeatureKey × FeatureKey)) (s : BuilderState),
      keyNode s k = some n →
      keyNode (more.foldl (fun s e => joinKeys s e.1 e.2) s) k = some n := by
    intro more
    induction more with
    | nil => intro s hs; exact hs
    | cons e t ih =>
      intro s hs
      exact ih _ (keyNode_mono_joinKeys hs e.1 e.2)
  unfold build at h ⊢
  rw [List.foldl_append]
  exact main more _ h

/-- C1: the partition of feature keys produced by `build` depends only on the
set of correspondence edges supplied — a permutation of the edge list, or a
duplicated edge, yields the identical final partition into connected
components (union is idempotent and order-independent). -/
theorem build_partition_edge_set_invariant :
    (∀ (l1 l2 : List (FeatureKey × FeatureKey)), l1.Perm l2 →
      ∀ x y, sameClass (build l1) x y ↔ sameClass (build l2) x y) ∧
    (∀ (l : List (FeatureKey × FeatureKey)) (e : FeatureKey × FeatureKey), e ∈ l →
      ∀ x y, sameClass (build (l ++ [e])) x y ↔ sameClass (build l) x y) := by
  constructor
  · intro l1 l2 hperm x y
    exact sameClass_build_congr (fun e => hperm.mem_iff) x y
  · intro l e he x y
    apply sameClass_build_congr
    intro e2
    rw [List.mem_append, List.mem_singleton]
    constructor
    · rintro (h | h)
      · exact h
      · rw [h]
        exact he
    · exact Or.inl

theorem build_partition_edge_set_invariant_witness :
    ([((1,0,0),(2,0,0)), ((3,0,0),(4,0,0))] : List (FeatureKey × FeatureKey)).Perm
        [((3,0,0),(4,0,0)), ((1,0,0),(2,0,0))] ∧
      (sameClass (build [((1,0,0),(2,0,0)), ((3,0,0),(4,0,0))]) (1,0,0) (2,0,0) ↔
        sameClass (build [((3,0,0),(4,0,0)), ((1,0,0),(2,0,0))]) (1,0,0) (2,0,0)) :=
  ⟨by decide, build_partition_edge_set_invariant.1 _ _ (by decide) _ _⟩

/-- C2: after `filter` with `clearForks = true`, every track of the exported
table comes from a class in which no two feature keys share a view id, and
the whole class is materialized (a class with a view-id collision is
rejected as a whole, never partially pruned). -/
theorem filter_clearForks_no_fork (edges : List (FeatureKey × FeatureKey))
    (minTrackLength : Nat) (tid : Nat) (tr : Track)
    (h : (tid, tr) ∈ exportToSTL (filter (build edges) true minTrackLength)) :
    ∃ c, c ∈ keyClassesList (build edges) ∧
      (∀ k1, k1 ∈ c → ∀ k2, k2 ∈ c → viewOf k1 = viewOf k2 → k1 = k2) ∧
      tr.featPerView = c.map fun k => (k.1, k.2.2) := by
  rcases export_filter_class (wf_build edges) h with ⟨r, hroot, hkeep, htr⟩
  have hnd := rejectedClass_false_nodup hkeep
  refine ⟨keyClassKeys (build edges) r, ?_, ?_, ?_⟩
  · unfold keyClassesList
    exact List.mem_map_of_mem _ hroot
  · intro k1 h1 k2 h2 hv
    exact List.inj_on_of_nodup_map hnd h1 h2 hv
  · rw [htr]
    exact materialize_featPerView_of_nodup hnd

theorem filter_clearForks_no_fork_witness :
    ((0, Track.mk 0 [(2,0),(1,0)]) ∈
        exportToSTL (filter (build [((1,0,0),(2,0,0))]) true 2)) ∧
      ∃ c, c ∈ keyClassesList (build [((1,0,0),(2,0,0))]) ∧
        (∀ k1, k1 ∈ c → ∀ k2, k2 ∈ c → viewOf k1 = viewOf k2 → k1 = k2) ∧
        (Track.mk 0 [(2,0),(1,0)]).featPerView = c.map fun k => (k.1, k.2.2) :=
  ⟨by decide, filter_clearForks_no_fork [((1,0,0),(2,0,0))] 2 0 _ (by decide)⟩

/-- C3 counterexample: `filter` with `minTrackLength = 0` does not keep every
class — with `clearForks = true` a forked class (two features of view 1) is
dropped even though the length floor is zero: one class exists after
`build`, yet the exported table after `filter true 0` is empty. -/
theorem filter_minLen_zero_counterexample :
    nbTracks (build [((1,0,0),(1,0,1))]) = 1 ∧
      exportToSTL (filter (build [((1,0,0),(1,0,1))]) true 0) = [] := by
  constructor
  · decide
  · decide

/-- C3 (amended): every exported track after `filter` spans at least
`minTrackLength` distinct view ids (its `featPerView` keys are distinct and
number at least `minTrackLength`), and with the fork check disabled,
`filter` with `minTrackLength = 0` keeps every class — the degenerate
parameters accept everything rather than failing (the embedding is total:
no argument value raises an error). -/
theorem filter_length_floor :
    (∀ (edges : List (FeatureKey × FeatureKey)) (clearForks : Bool)
        (minTrackLength : Nat) (tid : Nat) (tr : Track),
        (tid, tr) ∈ exportToSTL (filter (build edges) clearForks minTrackLength) →
        minTrackLength ≤ tr.featPerView.length ∧ (tr.featPerView.map Prod.fst).Nodup) ∧
    (∀ s : BuilderState, filter s false 0 = s) := by
  constructor
  · intro edges cf ml tid tr h
    rcases export_filter_class (wf_build edges) h with ⟨r, hroot, hkeep, htr⟩
    constructor
    · rw [htr, materialize_featPerView_length]
      exact rejectedClass_false_floor hkeep
    · rw [htr]
      exact (materialize_featPerView_keys _).1
  · intro s
    unfold filter
    have hall : (s.root.filter fun nr =>
        !(rejectedClass false 0 (keyClassKeys s nr.2))) = s.root := by
      apply List.filter_eq_self.2
      intro a _
      rw [Bool.not_eq_true']
      unfold rejectedClass
      rw [Bool.false_and, Bool.false_or]
      exact decide_eq_false (Nat.not_lt_zero _)
    rw [hall]

theorem filter_length_floor_witness :
    ((0, Track.mk 0 [(2,0),(1,0)]) ∈
        exportToSTL (filter (build [((1,0,0),(2,0,0))]) true 2)) ∧
      (2 ≤ (Track.mk 0 [(2,0),(1,0)]).featPerView.length ∧
        ((Track.mk 0 [(2,0),(1,0)]).featPerView.map Prod.fst).Nodup) :=
  ⟨by decide, filter_length_floor.1 [((1,0,0),(2,0,0))] true 2 0 _ (by decide)⟩

/-- C4: correspondence fusion is transitive — whenever the input contains
correspondences A-B and B-C (in either orientation, possibly from different
pairwise entries), A and C are in the same class after `build`; and on the
concrete scenario with views 1, 2, 3 and feature 0 matched across them,
`build` produces a single class spanning the three views with feature
index 0 in each. -/
theorem build_transitive :
    (∀ (edges : List (FeatureKey × FeatureKey)) (A B C : FeatureKey),
        edgeRel edges A B → edgeRel edges B C → sameClass (build edges) A C) ∧
    exportToSTL (build [((1,0,0),(2,0,0)), ((2,0,0),(3,0,0))]) =
      [(0, Track.mk 0 [(3, 0), (2, 0), (1, 0)])] := by
  constructor
  · intro edges A B C h1 h2
    rw [sameClass_build_iff]
    exact ⟨(touched_of_edgeRel h1).1, (touched_of_edgeRel h2).2,
      (Linked.base h1).trans (Linked.base h2)⟩
  · decide

theorem build_transitive_witness :
    edgeRel ([((1,0,0),(2,0,0)), ((2,0,0),(3,0,0))] : List (FeatureKey × FeatureKey))
        (1,0,0) (2,0,0) ∧
      sameClass (build [((1,0,0),(2,0,0)), ((2,0,0),(3,0,0))]) (1,0,0) (3,0,0) :=
  ⟨by decide, build_transitive.1 _ (1,0,0) (2,0,0) (3,0,0) (by decide) (by decide)⟩

namespace tracksUtilsMap

/-- The one-track example table used to exercise the common-track queries. -/
def exampleTable : List (Nat × Track) := [(0, Track.mk 0 [(1, 0)])]

/-- The per-view index of `exampleTable` (view 1 sees track 0). -/
def exampleIndex : List (Nat × List Nat) := [(1, [0])]

theorem exampleIndex_sorted : ∀ v, (viewTracks exampleIndex v).Pairwise (· < ·) := by
  intro v
  by_cases hv : v = 1
  · subst hv
    have hvt : viewTracks exampleIndex 1 = [0] := by decide
    rw [hvt]
    exact List.pairwise_singleton _ _
  · have hvt : viewTracks exampleIndex v = [] := by
      unfold viewTracks exampleIndex
      rw [alookup_cons, if_neg hv]
      rfl
    rw [hvt]
    exact List.Pairwise.nil

theorem exampleIndex_derived : ∀ v t, t ∈ viewTracks exampleIndex v ↔
    ∃ tr0, alookup exampleTable t = some tr0 ∧ (alookup tr0.featPerView v).isSome := by
  intro v t
  by_cases hv : v = 1
  · subst hv
    have hvt : viewTracks exampleIndex 1 = [0] := by decide
    rw [hvt, List.mem_singleton]
    constructor
    · intro ht
      subst ht
      exact ⟨Track.mk 0 [(1, 0)], by decide, by decide⟩
    · rintro ⟨tr0, ha, _⟩
      by_cases ht : t = 0
      · exact ht
      · rw [show alookup exampleTable t = alookup [(0, Track.mk 0 [(1, 0)])] t
            from rfl, alookup_cons, if_neg ht, alookup_nil] at ha
        cases ha
  · have hvt : viewTracks exampleIndex v = [] := by
      unfold viewTracks exampleIndex
      rw [alookup_cons, if_neg hv]
      rfl
    rw [hvt]
    constructor
    · intro ht
      cases ht
    · rintro ⟨tr0, ha, hp⟩
      exfalso
      by_cases ht : t = 0
      · subst ht
        have htr0 : tr0 = Track.mk 0 [(1, 0)] := by
          rw [show alookup exampleTable 0 = some (Track.mk 0 [(1, 0)]) from by decide]
            at ha
          exact (Option.some.inj ha).symm
        subst htr0
        rw [show alookup (Track.mk 0 [(1, 0)]).featPerView v =
            alookup [(1, 0)] v from rfl, alookup_cons, if_neg hv, alookup_nil] at hp
        cases hp
      · rw [show alookup exampleTable t = alookup [(0, Track.mk 0 [(1, 0)])] t
            from rfl, alookup_cons, if_neg ht, alookup_nil] at ha
        cases ha

/-- C5 counterexample: on the empty set of view ids the fast and the slow
common-track query disagree, even over a track table with distinct ids and a
per-view index that is derived from the table and sorted ascending — the
slow table scan keeps every track vacuously, while the fast intersection has
no first view to start from and returns the empty set. -/
theorem commonTracks_empty_views_counterexample :
    (((exampleTable.map Prod.fst).Nodup) ∧
      (∀ v, (viewTracks exampleIndex v).Pairwise (· < ·)) ∧
      (∀ v t, t ∈ viewTracks exampleIndex v ↔
        ∃ tr0, alookup exampleTable t = some tr0 ∧
          (alookup tr0.featPerView v).isSome)) ∧
    getCommonTracksInImagesFast [] exampleTable exampleIndex = [] ∧
    getCommonTracksInImages [] exampleTable = [(0, Track.mk 0 [])] :=
  ⟨⟨by decide, exampleIndex_sorted, exampleIndex_derived⟩, by decide, by decide⟩

/-- C5 (amended): for every NONEMPTY set of view ids, every track table with
distinct track ids, and every view-to-track index derived from that table
whose per-view lists are sorted ascending, the fast merge-intersection query
and the slow table-scan query return identical result sets of tracks. -/
theorem commonTracks_fast_slow_equiv
    (views : List Nat) (tracks : List (Nat × Track)) (tpv : List (Nat × List Nat))
    (hne : views ≠ [])
    (hnd : (tracks.map Prod.fst).Nodup)
    (hsorted : ∀ v, (viewTracks tpv v).Pairwise (· < ·))
    (hderived : ∀ v t, t ∈ viewTracks tpv v ↔
      ∃ tr0, alookup tracks t = some tr0 ∧ (alookup tr0.featPerView v).isSome)
    (tid : Nat) (tr : Track) :
    (tid, tr) ∈ getCommonTracksInImagesFast views tracks tpv ↔
      (tid, tr) ∈ getCommonTracksInImages views tracks := by
  cases views with
  | nil => exact absurd rfl hne
  | cons v vs =>
    rw [mem_getCommonTracksInImagesFast, mem_getCommonTracksInImages]
    constructor
    · rintro ⟨hin, tr0, ha, htr⟩
      have hall := (mem_commonTrackIds hsorted tid).1 hin
      have hpred : ∀ u ∈ v :: vs, (alookup tr0.featPerView u).isSome := by
        intro u hu
        rcases (hderived u tid).1 (hall u hu) with ⟨tr1, ha1, hp1⟩
        rw [ha] at ha1
        cases Option.some.inj ha1
        exact hp1
      exact ⟨(tid, tr0), mem_of_alookup ha, rfl, hpred, htr⟩
    · rintro ⟨t1, hmem, htid, hall, htr⟩
      have ha : alookup tracks tid = some t1.2 := by
        rw [← htid]
        exact alookup_of_mem_nodup hnd hmem
      refine ⟨?_, t1.2, ha, htr⟩
      apply (mem_commonTrackIds hsorted tid).2
      intro u hu
      apply (hderived u tid).2
      exact ⟨t1.2, ha, hall u hu⟩

theorem commonTracks_fast_slow_equiv_witness :
    (([1] : List Nat) ≠ [] ∧ (exampleTable.map Prod.fst).Nodup) ∧
    ((0, Track.mk 0 [(1, 0)]) ∈
        getCommonTracksInImagesFast [1] exampleTable exampleIndex ↔
      (0, Track.mk 0 [(1, 0)]) ∈ getCommonTracksInImages [1] exampleTable) :=
  ⟨⟨by decide, by decide⟩,
    commonTracks_fast_slow_equiv [1] exampleTable exampleIndex
      (by decide) (by decide) exampleIndex_sorted exampleIndex_derived
      0 (Track.mk 0 [(1, 0)])⟩

/-- C6 counterexample: `getTracksInImageFast` queried with a view id absent
from the index returns before clearing the output set, so the absence is NOT
signaled as an empty result — the caller-supplied content survives. -/
theorem getTracksInImageFast_stale_output_counterexample :
    alookup ([] : List (Nat × List Nat)) 0 = none ∧
      getTracksInImageFast 0 [] [5] = [5] ∧ getTracksInImageFast 0 [] [5] ≠ [] := by
  refine ⟨rfl, rfl, ?_⟩
  decide

/-- C6 (amended): neither view-level lookup raises an error on an absent
view id — `getTracksInImageFast` returns with the output set exactly as the
caller passed it (hence empty whenever the caller passes it empty), and
`getTracksInImage` over a table in which no track contains the view yields
the empty set. -/
theorem absent_view_lookups :
    (∀ (tracksPerView : List (Nat × List Nat)) (imageId : Nat)
        (tracksIds : List Nat), alookup tracksPerView imageId = none →
        getTracksInImageFast imageId tracksPerView tracksIds = tracksIds) ∧
    (∀ (imageIndex : Nat) (tracks : List (Nat × Track)),
        (∀ t ∈ tracks, alookup t.2.featPerView imageIndex = none) →
        getTracksInImage imageIndex tracks = []) := by
  constructor
  · intro tpv imageId init h
    unfold getTracksInImageFast
    rw [h]
  · intro imageIndex tracks h
    unfold getTracksInImage
    have hnil : (tracks.filter fun t => (alookup t.2.featPerView imageIndex).isSome)
        = [] := by
      apply List.filter_eq_nil_iff.2
      intro a ha
      rw [h a ha]
      simp
    rw [hnil]
    rfl

theorem absent_view_lookups_witness :
    (alookup ([(3, [1])] : List (Nat × List Nat)) 9 = none ∧
      getTracksInImageFast 9 [(3, [1])] [] = []) ∧
    ((∀ t ∈ exampleTable, alookup t.2.featPerView 7 = none) ∧
      getTracksInImage 7 exampleTable = []) :=
  ⟨⟨by decide, absent_view_lookups.1 [(3, [1])] 9 [] (by decide)⟩,
    ⟨by decide, absent_view_lookups.2 7 exampleTable (by decide)⟩⟩

theorem tracksToIndexedMatches_cons_none {tracks : List (Nat × Track)}
    {i0 : Nat} (rest : List Nat)
    (h : tracks.find? (fun t => decide (t.1 = i0)) = none) :
    tracksToIndexedMatches tracks (i0 :: rest) = none := by
  unfold tracksToIndexedMatches
  rw [h]

theorem tracksToIndexedMatches_cons_some {tracks : List (Nat × Track)}
    {i0 : Nat} (rest : List Nat) {t : Nat × Track}
    (h : tracks.find? (fun t => decide (t.1 = i0)) = some t) :
    tracksToIndexedMatches tracks (i0 :: rest) =
      match t.2.featPerView with
      | [pI, pJ] =>
          match tracksToIndexedMatches tracks rest with
          | none => none
          | some l => some ((pI.2, pJ.2) :: l)
      | _ => none := by
  simp only [tracksToIndexedMatches]
  rw [h]

/-- C7: when every requested track id is found and its track has exactly two
observations, the `assert(featPerView.size() == 2)` never fires and the
conversion succeeds, producing exactly one ordered pair of feature indices
(image A, image B) per selected track. -/
theorem tracksToIndexedMatches_two_obs (tracks : List (Nat × Track))
    (filterIndex : List Nat)
    (h : ∀ i ∈ filterIndex, ∃ t, tracks.find? (fun t => decide (t.1 = i)) = some t ∧
      t.2.featPerView.length = 2) :
    ∃ l, tracksToIndexedMatches tracks filterIndex = some l ∧
      l.length = filterIndex.length ∧
      ∀ (j i : Nat), filterIndex[j]? = some i →
        ∃ t pI pJ, tracks.find? (fun t => decide (t.1 = i)) = some t ∧
          t.2.featPerView = [pI, pJ] ∧ l[j]? = some (pI.2, pJ.2) := by
  induction filterIndex with
  | nil =>
    refine ⟨[], rfl, rfl, ?_⟩
    intro j i hj
    rw [List.getElem?_nil] at hj
    cases hj
  | cons i0 rest ih =>
    obtain ⟨t, hfind, hlen⟩ := h i0 (List.mem_cons_self _ _)
    obtain ⟨pI, pJ, hfp⟩ : ∃ pI pJ, t.2.featPerView = [pI, pJ] := by
      cases hl : t.2.featPerView with
      | nil => rw [hl] at hlen; cases hlen
      | cons a l2 =>
        cases l2 with
        | nil => rw [hl] at hlen; simp at hlen
        | cons b l3 =>
          cases l3 with
          | nil => exact ⟨a, b, rfl⟩
          | cons c l4 => rw [hl] at hlen; simp at hlen
    obtain ⟨l, hrec, hlenl, hpt⟩ := ih fun i hi => h i (List.mem_cons_of_mem _ hi)
    refine ⟨(pI.2, pJ.2) :: l, ?_, ?_, ?_⟩
    · rw [tracksToIndexedMatches_cons_some rest hfind, hfp, hrec]
    · rw [List.length_cons, List.length_cons, hlenl]
    · intro j i hj
      cases j with
      | zero =>
        rw [List.getElem?_cons_zero] at hj
        cases Option.some.inj hj
        exact ⟨t, pI, pJ, hfind, hfp, List.getElem?_cons_zero⟩
      | succ j2 =>
        rw [List.getElem?_cons_succ] at hj
        obtain ⟨t2, pI2, pJ2, hfind2, hfp2, hget2⟩ := hpt j2 i hj
        refine ⟨t2, pI2, pJ2, hfind2, hfp2, ?_⟩
        rw [List.getElem?_cons_succ]
        exact hget2

/-- A two-view example table: track 0 seen in views 1 and 2. -/
def exampleTwoViewTable : List (Nat × Track) := [(0, Track.mk 0 [(1, 4), (2, 7)])]

theorem exampleTwoViewTable_two_obs : ∀ i ∈ ([0] : List Nat),
    ∃ t, (exampleTwoViewTable.find? fun t => decide (t.1 = i)) = some t ∧
      t.2.featPerView.length = 2 := by
  intro i hi
  rw [List.mem_singleton] at hi
  subst hi
  exact ⟨(0, Track.mk 0 [(1, 4), (2, 7)]), by decide, by decide⟩

theorem tracksToIndexedMatches_two_obs_witness :
    (∀ i ∈ ([0] : List Nat),
      ∃ t, (exampleTwoViewTable.find? fun t => decide (t.1 = i)) = some t ∧
        t.2.featPerView.length = 2) ∧
    ∃ l, tracksToIndexedMatches exampleTwoViewTable [0] = some l ∧
      l.length = ([0] : List Nat).length ∧
      ∀ (j i : Nat), ([0] : List Nat)[j]? = some i →
        ∃ t pI pJ, (exampleTwoViewTable.find? fun t => decide (t.1 = i)) = some t ∧
          t.2.featPerView = [pI, pJ] ∧ l[j]? = some (pI.2, pJ.2) :=
  ⟨exampleTwoViewTable_two_obs,
    tracksToIndexedMatches_two_obs exampleTwoViewTable [0] exampleTwoViewTable_two_obs⟩

/-- C10: the unconditional dereference after the linear search makes the
presence of every requested track id an implicit precondition — a
successful run implies every id of `filterIndex` was found in the table,
and an absent id anywhere in `filterIndex` makes the whole conversion fail
(it is not skipped and not reported as a not-found result, unlike the other
lookup utilities). -/
theorem tracksToIndexedMatches_requires_present (tracks : List (Nat × Track))
    (filterIndex : List Nat) :
    (∀ l, tracksToIndexedMatches tracks filterIndex = some l →
      ∀ i ∈ filterIndex, ((tracks.find? fun t => decide (t.1 = i))).isSome) ∧
    (∀ i ∈ filterIndex, (tracks.find? fun t => decide (t.1 = i)) = none →
      tracksToIndexedMatches tracks filterIndex = none) := by
  induction filterIndex with
  | nil =>
    constructor
    · intro l _ i hi
      cases hi
    · intro i hi
      cases hi
  | cons i0 rest ih =>
    constructor
    · intro l hl i hi
      cases hfind : tracks.find? (fun t => decide (t.1 = i0)) with
      | none =>
        rw [tracksToIndexedMatches_cons_none rest hfind] at hl
        cases hl
      | some t =>
        rcases List.mem_cons.1 hi with hi | hi
        · subst hi
          rw [hfind]
          rfl
        · rw [tracksToIndexedMatches_cons_some rest hfind] at hl
          obtain ⟨l2, hl2⟩ : ∃ l2, tracksToIndexedMatches tracks rest = some l2 := by
            cases hfp : t.2.featPerView with
            | nil => rw [hfp] at hl; cases hl
            | cons a l3 =>
              cases l3 with
              | nil => rw [hfp] at hl; cases hl
              | cons b l4 =>
                cases l4 with
                | nil =>
                  rw [hfp] at hl
                  cases hrec : tracksToIndexedMatches tracks rest with
                  | none => rw [hrec] at hl; cases hl
                  | some l2 => exact ⟨l2, rfl⟩
                | cons c l5 => rw [hfp] at hl; cases hl
          exact ih.1 l2 hl2 i hi
    · intro i hi hnone
      rcases List.mem_cons.1 hi with hi | hi
      · subst hi
        exact tracksToIndexedMatches_cons_none rest hnone
      · have hrest := ih.2 i hi hnone
        cases hfind : tracks.find? (fun t => decide (t.1 = i0)) with
        | none => exact tracksToIndexedMatches_cons_none rest hfind
        | some t =>
          rw [tracksToIndexedMatches_cons_some rest hfind]
          cases hfp : t.2.featPerView with
          | nil => rfl
          | cons a l3 =>
            cases l3 with
            | nil => rfl
            | cons b l4 =>
              cases l4 with
              | nil => rw [hrest]
              | cons c l5 => rfl

theorem tracksToIndexedMatches_requires_present_witness :
    ((7 : Nat) ∈ ([7] : List Nat) ∧
      (exampleTable.find? fun t => decide (t.1 = 7)) = none) ∧
    tracksToIndexedMatches exampleTable [7] = none :=
  ⟨⟨by decide, by decide⟩,
    (tracksToIndexedMatches_requires_present exampleTable [7]).2 7
      (by decide) (by decide)⟩

end tracksUtilsMap

/-- C8: immediately after `build`, `nbTracks` returns exactly the number of
disjoint classes of the union-find structure — the enumerated classes are
pairwise disjoint, nonempty, cover exactly the allocated nodes, and are
counted by `nbTracks` — and across any `filter` invocation the value of
`nbTracks` never increases. -/
theorem nbTracks_classes_and_filter :
    (∀ edges : List (FeatureKey × FeatureKey),
      nbTracks (build edges) = (classesList (build edges)).length ∧
      (classesList (build edges)).Pairwise (fun c1 c2 => ∀ n, n ∈ c1 → n ∉ c2) ∧
      (∀ c ∈ classesList (build edges), c ≠ []) ∧
      (∀ n, (nodeRoot (build edges) n).isSome ↔
        ∃ c ∈ classesList (build edges), n ∈ c)) ∧
    (∀ (s : BuilderState) (clearForks : Bool) (minTrackLength : Nat),
      nbTracks (filter s clearForks minTrackLength) ≤ nbTracks s) := by
  constructor
  · intro edges
    have hw := wf_build edges
    refine ⟨?_, ?_, ?_, ?_⟩
    · unfold classesList nbTracks
      rw [List.length_map]
    · unfold classesList
      rw [List.pairwise_map]
      have hnd : (rootsList (build edges)).Pairwise (· ≠ ·) := List.nodup_dedup _
      refine hnd.imp ?_
      intro r1 r2 hne n hn1 hn2
      apply hne
      have h1 := alookup_of_mem_nodup hw.rootKeysNodup (mem_classOfNodes.1 hn1)
      have h2 := alookup_of_mem_nodup hw.rootKeysNodup (mem_classOfNodes.1 hn2)
      exact Option.some.inj (h1.symm.trans h2)
    · intro c hc
      unfold classesList at hc
      rcases List.mem_map.1 hc with ⟨r, hr, hcr⟩
      rcases mem_rootsList.1 hr with ⟨n, hn⟩
      subst hcr
      exact List.ne_nil_of_mem (mem_classOfNodes.2 hn)
    · intro n
      constructor
      · intro hs
        rcases Option.isSome_iff_exists.1 hs with ⟨r, hr⟩
        have hmem : (n, r) ∈ (build edges).root := mem_of_alookup hr
        refine ⟨classOfNodes (build edges) r, ?_, mem_classOfNodes.2 hmem⟩
        unfold classesList
        exact List.mem_map_of_mem _ (mem_rootsList.2 ⟨n, hmem⟩)
      · rintro ⟨c, hc, hn⟩
        unfold classesList at hc
        rcases List.mem_map.1 hc with ⟨r, _, hcr⟩
        rw [← hcr] at hn
        exact alookup_isSome_of_mem (mem_classOfNodes.1 hn)
  · intro s cf ml
    exact nbTracks_filter_le s cf ml

theorem nbTracks_classes_and_filter_witness :
    nbTracks (build [((1,0,0),(2,0,0))]) =
        (classesList (build [((1,0,0),(2,0,0))])).length ∧
      nbTracks (filter (build [((1,0,0),(2,0,0))]) true 2) ≤
        nbTracks (build [((1,0,0),(2,0,0))]) ∧
      nbTracks (build [((1,0,0),(2,0,0))]) = 1 :=
  ⟨(nbTracks_classes_and_filter.1 _).1,
    nbTracks_classes_and_filter.2 _ true 2, by decide⟩

/-- C9: the key-node mapping maintained by the builder is a bijection at all
times — the key-to-node map is injective, it is mutually inverse with the
node-to-key map, and a key that was already referenced keeps resolving to
its existing node however many further edges are processed (re-referencing
never creates a duplicate node). -/
theorem keyNode_bijection (edges : List (FeatureKey × FeatureKey)) :
    (∀ k1 k2 n, keyNode (build edges) k1 = some n →
      keyNode (build edges) k2 = some n → k1 = k2) ∧
    (∀ k n, keyNode (build edges) k = some n ↔
      alookup (build edges).nodeToIndex n = some k) ∧
    (∀ (more : List (FeatureKey × FeatureKey)) (k : FeatureKey) (n : Nat),
      keyNode (build edges) k = some n → keyNode (build (edges ++ more)) k = some n) := by
  have hw := wf_build edges
  refine ⟨hw.inj, ?_, ?_⟩
  · intro k n
    exact ⟨hw.toIdx k n, hw.ofIdx n k⟩
  · intro more k n h
    exact keyNode_mono_build more h

theorem keyNode_bijection_witness :
    keyNode (build [((1,0,0),(2,0,0))]) (1,0,0) = some 0 ∧
      keyNode (build ([((1,0,0),(2,0,0))] ++ [((2,0,0),(3,0,0))])) (1,0,0) = some 0 :=
  ⟨by decide,
    (keyNode_bijection [((1,0,0),(2,0,0))]).2.2 [((2,0,0),(3,0,0))] (1,0,0) 0 (by decide)⟩

end track
